import Mathlib

/-!
# Verification of the Global-Insight-Tracker site-graph core

Shallow embedding of `src/temp/site_graph.py` (SiteGraph data structure,
BFS path queries, persistence, registry) and `src/route_discovery.py`
(URL canonicalization, domain scoping, page classification, bounded
breadth-first discovery), with proofs of the specified properties.

Python `dict` values are modelled as association lists that preserve
insertion order and key uniqueness (assignment to an existing key keeps
its position); Python `set` values are modelled as duplicate-free lists
built by membership-checked insertion.  Python `str` is modelled as Lean
`String` (in this toolchain a wrapper around `List Char`).
-/

namespace GIT

/-! ## Python dict / set primitives -/

/-- `d[k]` lookup returning `none` when the key is absent (`dict.get`). -/
def dictGet {α : Type} (k : String) : List (String × α) → Option α
  | [] => none
  | (k', v) :: rest => if k' = k then some v else dictGet k rest

/-- `k in d` membership test for a Python dict. -/
def dictContains {α : Type} (k : String) (d : List (String × α)) : Bool :=
  (dictGet k d).isSome

/-- `d[k] = v` assignment: replaces in place when the key exists, else
appends, matching Python dict insertion-order semantics. -/
def dictInsert {α : Type} (k : String) (v : α) : List (String × α) → List (String × α)
  | [] => [(k, v)]
  | (k', v') :: rest => if k' = k then (k', v) :: rest else (k', v') :: dictInsert k v rest

/-- In-place update of the value stored at key `k` (no-op when absent). -/
def dictModify {α : Type} (k : String) (f : α → α) : List (String × α) → List (String × α)
  | [] => []
  | (k', v) :: rest => if k' = k then (k', f v) :: rest else (k', v) :: dictModify k f rest

/-- `s.add(x)` on a Python set modelled as a duplicate-free list. -/
def setInsert (s : List String) (x : String) : List String :=
  if x ∈ s then s else s ++ [x]

/-- `s.update(xs)` on a Python set: insert every element of `xs`. -/
def setUpdate (s : List String) (xs : List String) : List String :=
  xs.foldl setInsert s

/-! ## Node and edge model (`site_graph.py`, `NodeType`, `GraphNode`, `GraphEdge`) -/

/-- `NodeType` enum from `site_graph.py`. -/
inductive NodeType where
  | HOME
  | SECTION
  | LISTING
  | REPORT_PAGE
  | DOCUMENT
  | UNKNOWN
deriving DecidableEq, Repr

/-- The string `.value` of each enum member. -/
def NodeType.value : NodeType → String
  | .HOME => "home"
  | .SECTION => "section"
  | .LISTING => "listing"
  | .REPORT_PAGE => "report_page"
  | .DOCUMENT => "document"
  | .UNKNOWN => "unknown"

/-- `NodeType(value)`: enum lookup by value, `none` models `ValueError`. -/
def NodeType.fromValue : String → Option NodeType
  | "home" => some .HOME
  | "section" => some .SECTION
  | "listing" => some .LISTING
  | "report_page" => some .REPORT_PAGE
  | "document" => some .DOCUMENT
  | "unknown" => some .UNKNOWN
  | _ => none

/-- `GraphNode` dataclass.  `metadata` is a free-form dict that the core
only ever copies, modelled as a string-to-string association list; the
dataclass defaults are reproduced as field defaults. -/
structure GraphNode where
  url : String
  node_type : NodeType := .UNKNOWN
  title : String := ""
  topics : List String := []
  depth : Nat := 0
  parent_url : Option String := none
  discovered_at : String := ""
  last_visited : String := ""
  visit_count : Nat := 0
  is_active : Bool := true
  document_url : Option String := none
  metadata : List (String × String) := []
deriving DecidableEq, Repr

/-- `GraphNode.__post_init__`: stamp `discovered_at` when it is empty.
`now` stands for `datetime.now().isoformat()`. -/
def GraphNode.postInit (now : String) (n : GraphNode) : GraphNode :=
  if n.discovered_at = "" then { n with discovered_at := now } else n

/-- `GraphEdge` dataclass.  `weight` (Python float, default `1.0`, only
ever stored and copied, never computed with) is modelled as a numeral. -/
structure GraphEdge where
  from_url : String
  to_url : String
  link_text : String := ""
  edge_type : String := "navigation"
  weight : Nat := 1
deriving DecidableEq, Repr

/-! ## SiteGraph -/

/-- `SiteGraph` state: nodes dict, ordered edge list, adjacency dict of
sets, known route lists, site topic set, timestamps. -/
structure SiteGraph where
  site_name : String
  base_url : String
  nodes : List (String × GraphNode) := []
  edges : List GraphEdge := []
  adjacency : List (String × List String) := []
  known_routes : List (String × List String) :=
    [("reports", []), ("insights", []), ("documents", [])]
  site_topics : List String := []
  created_at : String := ""
  last_updated : String := ""
deriving DecidableEq, Repr

/-- `SiteGraph.__init__(site_name, base_url)`: strips trailing slashes
from the base URL and stamps both timestamps with `now`. -/
def SiteGraph.init (site_name base_url now : String) : SiteGraph :=
  { site_name := site_name
    base_url := base_url.dropRightWhile (· = '/')
    created_at := now
    last_updated := now }

/-- `SiteGraph.add_node`: dict upsert keyed by `node.url`, ensure an
adjacency entry, union the node topics into `site_topics`, refresh
`last_updated`. -/
def SiteGraph.add_node (g : SiteGraph) (node : GraphNode) (now : String) : SiteGraph :=
  { g with
    nodes := dictInsert node.url node g.nodes
    adjacency :=
      if dictContains node.url g.adjacency then g.adjacency
      else dictInsert node.url [] g.adjacency
    site_topics := setUpdate g.site_topics node.topics
    last_updated := now }

/-- `SiteGraph.add_edge`: append a `GraphEdge` and add `to_url` into the
adjacency set of `from_url` (creating the entry when missing). -/
def SiteGraph.add_edge (g : SiteGraph) (from_url to_url : String)
    (link_text : String := "") (edge_type : String := "navigation") : SiteGraph :=
  let adj :=
    if dictContains from_url g.adjacency then g.adjacency
    else dictInsert from_url [] g.adjacency
  { g with
    edges := g.edges ++ [{ from_url := from_url, to_url := to_url,
                           link_text := link_text, edge_type := edge_type }]
    adjacency := dictModify from_url (fun s => setInsert s to_url) adj }

/-- `SiteGraph.get_node`. -/
def SiteGraph.get_node (g : SiteGraph) (url : String) : Option GraphNode :=
  dictGet url g.nodes

/-- `SiteGraph.register_report_route`: idempotent append of `url` under
`route_type`, only when the route type key already exists. -/
def SiteGraph.register_report_route (g : SiteGraph) (route_type url : String) : SiteGraph :=
  if dictContains route_type g.known_routes then
    let routes := dictModify route_type (fun l => if url ∈ l then l else l ++ [url]) g.known_routes
    { g with known_routes := routes }
  else g

/-! ## Helper lemmas about the dict / set primitives -/

theorem dictGet_dictInsert_self {α : Type} (k : String) (v : α) (d : List (String × α)) :
    dictGet k (dictInsert k v d) = some v := by
  induction d with
  | nil => simp [dictInsert, dictGet]
  | cons hd tl ih =>
    obtain ⟨k', v'⟩ := hd
    by_cases h : k' = k
    · simp [dictInsert, dictGet, h]
    · simp [dictInsert, dictGet, h, ih]

theorem dictInsert_length_of_contains {α : Type} (k : String) (v : α)
    (d : List (String × α)) (h : dictContains k d = true) :
    (dictInsert k v d).length = d.length := by
  induction d with
  | nil => simp [dictContains, dictGet] at h
  | cons hd tl ih =>
    obtain ⟨k', v'⟩ := hd
    by_cases hk : k' = k
    · simp [dictInsert, hk]
    · simp [dictContains, dictGet, hk] at h
      simp [dictInsert, hk, ih h]

theorem dictInsert_idem {α : Type} (k : String) (v : α) (d : List (String × α)) :
    dictInsert k v (dictInsert k v d) = dictInsert k v d := by
  induction d with
  | nil => simp [dictInsert]
  | cons hd tl ih =>
    obtain ⟨k', v'⟩ := hd
    by_cases hk : k' = k
    · simp [dictInsert, hk]
    · simp [dictInsert, hk, ih]

theorem dictContains_dictInsert_self {α : Type} (k : String) (v : α)
    (d : List (String × α)) :
    dictContains k (dictInsert k v d) = true := by
  simp [dictContains, dictGet_dictInsert_self]

theorem setInsert_of_mem {s : List String} {x : String} (h : x ∈ s) :
    setInsert s x = s := by
  simp [setInsert, h]

theorem mem_setInsert_of_mem {s : List String} {x : String} (y : String) (h : x ∈ s) :
    x ∈ setInsert s y := by
  by_cases hy : y ∈ s
  · simpa [setInsert, hy]
  · simp [setInsert, hy]
    exact Or.inl h

theorem mem_setInsert_self (s : List String) (x : String) :
    x ∈ setInsert s x := by
  by_cases hx : x ∈ s
  · simpa [setInsert, hx]
  · simp [setInsert, hx]

theorem mem_setUpdate_of_mem_base {s : List String} (xs : List String) {x : String}
    (h : x ∈ s) : x ∈ setUpdate s xs := by
  induction xs generalizing s with
  | nil => simpa [setUpdate] using h
  | cons hd tl ih =>
    simpa [setUpdate] using ih (mem_setInsert_of_mem hd h)

theorem mem_setUpdate_of_mem_right (s : List String) {xs : List String} {x : String}
    (h : x ∈ xs) : x ∈ setUpdate s xs := by
  induction xs generalizing s with
  | nil => cases h
  | cons hd tl ih =>
    rcases List.mem_cons.mp h with h1 | h1
    · subst h1
      have hx : x ∈ setInsert s x := mem_setInsert_self s x
      simpa [setUpdate] using mem_setUpdate_of_mem_base tl hx
    · simpa [setUpdate] using ih (setInsert s hd) h1

theorem setUpdate_of_subset {s : List String} {xs : List String}
    (h : ∀ x ∈ xs, x ∈ s) : setUpdate s xs = s := by
  induction xs with
  | nil => simp [setUpdate]
  | cons hd tl ih =>
    have hhd : hd ∈ s := h hd (by simp)
    have htl : ∀ x ∈ tl, x ∈ s := fun x hx => h x (by simp [hx])
    simp [setUpdate, setInsert_of_mem hhd]
    simpa [setUpdate] using ih htl

theorem setUpdate_idem (s : List String) (xs : List String) :
    setUpdate (setUpdate s xs) xs = setUpdate s xs :=
  setUpdate_of_subset (fun x hx => mem_setUpdate_of_mem_right s hx)

/-! ## URL model (`urllib.parse` as used by `route_discovery.py`)

`_normalize_url`, `_get_base_url`, `_is_same_domain` and `_classify_page`
call into `urllib.parse` (`urljoin`, `urlparse`).  The functions below are
a model of the CPython `urllib.parse` algorithms (scheme detection, netloc
extraction, fragment/query split, params split, relative-reference
resolution with dot-segment removal), restricted to `allow_fragments=True`
as the repository always uses them.  Strings are manipulated through their
character lists. -/

/-- Characters permitted in a URL scheme after the initial letter. -/
def isSchemeChar (c : Char) : Bool :=
  c.isAlpha || c.isDigit || c = '+' || c = '-' || c = '.'

/-- Scan for `scheme ':'` after a leading letter; `none` when the first
`':'` is missing or preceded by a non-scheme character. -/
def extractSchemeGo (acc : List Char) : List Char → Option (List Char × List Char)
  | [] => none
  | d :: rest =>
    if d = ':' then some (acc.reverse, rest)
    else if isSchemeChar d then extractSchemeGo (d :: acc) rest
    else none

/-- Scheme detection of `urlsplit`: requires a leading ASCII letter. -/
def extractScheme : List Char → Option (List Char × List Char)
  | [] => none
  | c :: rest => if c.isAlpha then extractSchemeGo [c] rest else none

/-- A character that does not terminate the netloc portion. -/
def notDelim (c : Char) : Bool := c ≠ '/' && c ≠ '?' && c ≠ '#'

/-- Parsed URL components (`urlparse` result; `params` empty for
`urlsplit`). -/
structure UrlParts where
  scheme : List Char := []
  netloc : List Char := []
  path : List Char := []
  params : List Char := []
  query : List Char := []
  fragment : List Char := []
deriving DecidableEq, Repr

/-- A WHATWG C0-control-or-space character (stripped from the front of a
URL by `urlsplit`). -/
def isC0OrSpace (c : Char) : Bool := c.toNat ≤ 0x20

/-- An unsafe URL byte removed everywhere by `urlsplit` (tab, CR, LF). -/
def isUnsafeUrlChar (c : Char) : Bool := c = '\t' || c = '\r' || c = '\n'

/-- `urlsplit` preprocessing: left-strip C0 controls and spaces, then
remove every tab, CR and LF. -/
def preprocessUrl (l : List Char) : List Char :=
  (l.dropWhile isC0OrSpace).filter (fun c => ! isUnsafeUrlChar c)

/-- `urlsplit` preprocessing of the default scheme: strip C0 controls and
spaces from both ends, then remove tab, CR and LF. -/
def preprocessScheme (l : List Char) : List Char :=
  ((((l.dropWhile isC0OrSpace).reverse.dropWhile isC0OrSpace).reverse).filter
    (fun c => ! isUnsafeUrlChar c))

/-- `urlsplit(url, defaultScheme)` with `allow_fragments=True`:
preprocessing, scheme detection (lower-cased), `//`-netloc extraction,
then fragment and query splits in that order. -/
def urlsplitChars (rawUrl : List Char) (rawDefaultScheme : List Char) : UrlParts :=
  let url := preprocessUrl rawUrl
  let defaultScheme := preprocessScheme rawDefaultScheme
  let p1 :=
    match extractScheme url with
    | some (s, r) => (s.map Char.toLower, r)
    | none => (defaultScheme, url)
  let scheme := p1.1
  let rest := p1.2
  let p2 :=
    if rest.take 2 = ['/', '/'] then
      ((rest.drop 2).takeWhile notDelim, (rest.drop 2).dropWhile notDelim)
    else ([], rest)
  let netloc := p2.1
  let rest2 := p2.2
  let beforeFrag := rest2.takeWhile (· ≠ '#')
  let fragment := (rest2.dropWhile (· ≠ '#')).drop 1
  let path := beforeFrag.takeWhile (· ≠ '?')
  let query := (beforeFrag.dropWhile (· ≠ '?')).drop 1
  { scheme := scheme, netloc := netloc, path := path, query := query, fragment := fragment }

/-- Schemes that allow relative resolution (`uses_relative`). -/
def uses_relative : List (List Char) :=
  ["", "ftp", "http", "gopher", "nntp", "imap", "wais", "file", "https",
   "shttp", "mms", "prospero", "rtsp", "rtsps", "rtspu", "sftp", "svn",
   "svn+ssh", "ws", "wss"].map String.data

/-- Schemes that use a network location (`uses_netloc`). -/
def uses_netloc : List (List Char) :=
  ["", "ftp", "http", "gopher", "nntp", "telnet", "imap", "wais", "file",
   "mms", "https", "shttp", "snews", "prospero", "rtsp", "rtsps", "rtspu",
   "rsync", "svn", "svn+ssh", "sftp", "nfs", "git", "git+ssh", "ws",
   "wss"].map String.data

/-- Schemes whose URLs carry `;params` (`urllib.parse.uses_params`). -/
def uses_params : List (List Char) :=
  ["", "ftp", "hdl", "prospero", "http", "imap", "https", "shttp", "rtsp",
   "rtsps", "rtspu", "sip", "sips", "mms", "sftp", "tel"].map String.data

/-- `_splitparams`: split `;params` off the last path segment only. -/
def splitParamsChars (path : List Char) : List Char × List Char :=
  if '/' ∈ path then
    let lastSeg := (path.reverse.takeWhile (· ≠ '/')).reverse
    let initPart := path.take (path.length - lastSeg.length)
    if ';' ∈ lastSeg then
      (initPart ++ lastSeg.takeWhile (· ≠ ';'), (lastSeg.dropWhile (· ≠ ';')).drop 1)
    else (path, [])
  else
    if ';' ∈ path then
      (path.takeWhile (· ≠ ';'), (path.dropWhile (· ≠ ';')).drop 1)
    else (path, [])

/-- `urlparse(url, defaultScheme)`: `urlsplit` plus the params split. -/
def urlparseChars (url : List Char) (defaultScheme : List Char) : UrlParts :=
  let r := urlsplitChars url defaultScheme
  if r.scheme ∈ uses_params && ';' ∈ r.path then
    let pq := splitParamsChars r.path
    { r with path := pq.1, params := pq.2 }
  else r

/-- `urlunsplit`: note the netloc-restoring guard of contemporary
CPython (`netloc or (scheme and scheme in uses_netloc and url[:2] != '//')`). -/
def urlunsplitChars (scheme netloc path query fragment : List Char) : List Char :=
  let url := path
  let url :=
    if netloc ≠ [] ∨ (scheme ≠ [] ∧ scheme ∈ uses_netloc ∧ url.take 2 ≠ ['/', '/']) then
      let url' := if url ≠ [] ∧ url.take 1 ≠ ['/'] then '/' :: url else url
      ['/', '/'] ++ netloc ++ url'
    else url
  let url := if scheme ≠ [] then scheme ++ ':' :: url else url
  let url := if query ≠ [] then url ++ '?' :: query else url
  if fragment ≠ [] then url ++ '#' :: fragment else url

/-- `urlunparse`: re-attach params to the path, then `urlunsplit`. -/
def urlunparseChars (p : UrlParts) : List Char :=
  let path := if p.params ≠ [] then p.path ++ ';' :: p.params else p.path
  urlunsplitChars p.scheme p.netloc path p.query p.fragment

/-- `segments[1:-1] = filter(None, segments[1:-1])`: drop empty segments
strictly between the first and the last. -/
def pyFilterMiddle : List (List Char) → List (List Char)
  | [] => []
  | [a] => [a]
  | a :: rest =>
    a :: ((rest.dropLast.filter (fun s => ¬ s.isEmpty)) ++ rest.drop (rest.length - 1))

/-- The dot-segment resolution loop of `urljoin` (`'..'` pops, `'.'` is
dropped, anything else is appended). -/
def resolveSegs (segments : List (List Char)) : List (List Char) :=
  segments.foldl
    (fun acc seg =>
      if seg = ['.', '.'] then acc.dropLast
      else if seg = ['.'] then acc
      else acc ++ [seg]) []

/-- `urljoin(base, url)` (CPython algorithm, `allow_fragments=True`). -/
def urljoinChars (base url : List Char) : List Char :=
  if base = [] then url
  else if url = [] then base
  else
    let b := urlparseChars base []
    let u := urlparseChars url b.scheme
    if u.scheme ≠ b.scheme ∨ u.scheme ∉ uses_relative then url
    else if u.scheme ∈ uses_netloc ∧ u.netloc ≠ [] then urlunparseChars u
    else
      let netloc := if u.scheme ∈ uses_netloc then b.netloc else u.netloc
      if u.path = [] ∧ u.params = [] then
        let query := if u.query = [] then b.query else u.query
        urlunparseChars { scheme := u.scheme, netloc := netloc, path := b.path,
                          params := b.params, query := query, fragment := u.fragment }
      else
        let base_parts := b.path.splitOn '/'
        let base_parts :=
          match base_parts.getLast? with
          | some [] => base_parts
          | some _ => base_parts.dropLast
          | none => base_parts
        let segments :=
          if u.path.take 1 = ['/'] then u.path.splitOn '/'
          else pyFilterMiddle (base_parts ++ u.path.splitOn '/')
        let resolved := resolveSegs segments
        let resolved :=
          match segments.getLast? with
          | some s => if s = ['.'] ∨ s = ['.', '.'] then resolved ++ [[]] else resolved
          | none => resolved
        let joined := List.intercalate ['/'] resolved
        urlunparseChars { scheme := u.scheme, netloc := netloc,
                          path := if joined = [] then ['/'] else joined,
                          params := u.params, query := u.query, fragment := u.fragment }

/-! ## `RouteDiscovery` URL helpers -/

/-- `url.split('#')[0].split('?')[0]`: cut at the first `'#'`, then at
the first `'?'` of what remains. -/
def stripChars (l : List Char) : List Char :=
  (l.takeWhile (· ≠ '#')).takeWhile (· ≠ '?')

/-- `RouteDiscovery._normalize_url(url, base_url)`. -/
def normalize_url (url base_url : String) : String :=
  if "http".data.isPrefixOf url.data then ⟨stripChars url.data⟩
  else ⟨stripChars (urljoinChars base_url.data url.data)⟩

/-- `RouteDiscovery._get_base_url(url)`: `f"{scheme}://{netloc}"`. -/
def get_base_url (url : String) : String :=
  let p := urlparseChars url.data []
  ⟨p.scheme ++ "://".data ++ p.netloc⟩

/-- Scanner for `str.replace(pat, '')`: in state `0` test for an
occurrence of `pat` (skipping its remaining `pat.length - 1` characters
on a hit); in state `k+1` keep dropping matched characters. -/
def removeAllOccGo (pat : List Char) : Nat → List Char → List Char
  | _, [] => []
  | 0, c :: rest =>
    if pat ≠ [] ∧ pat.isPrefixOf (c :: rest) then
      removeAllOccGo pat (pat.length - 1) rest
    else c :: removeAllOccGo pat 0 rest
  | k + 1, _ :: rest => removeAllOccGo pat k rest

/-- Python `str.replace(pat, '')`: remove every (leftmost,
non-overlapping) occurrence of `pat`. -/
def removeAllOcc (pat l : List Char) : List Char := removeAllOccGo pat 0 l

/-- The mismatched-IPv6-bracket condition that makes CPython `urlsplit`
raise `ValueError` (caught by `_is_same_domain`'s bare `except`). -/
def netlocBracketsBad (netloc : List Char) : Bool :=
  (decide ('[' ∈ netloc)) != (decide (']' ∈ netloc))

/-- `RouteDiscovery._is_same_domain(url, base_url)`: compare the two
netlocs after `str.replace('www.', '')`; parse errors yield `False`. -/
def is_same_domain (url base_url : String) : Bool :=
  let un := (urlparseChars url.data []).netloc
  let bn := (urlparseChars base_url.data []).netloc
  if netlocBracketsBad un || netlocBracketsBad bn then false
  else removeAllOcc "www.".data un == removeAllOcc "www.".data bn

/-! ## Page classification (`RouteDiscovery._classify_page` and helpers) -/

/-- Lower-case a string (`str.lower()`; URLs here are ASCII). -/
def lowerStr (s : String) : String := ⟨s.data.map Char.toLower⟩

/-- Substring occurrence (Python `in` for nonempty needles). -/
def containsSub (pat : List Char) : List Char → Bool
  | [] => pat.isEmpty
  | c :: rest => pat.isPrefixOf (c :: rest) || containsSub pat rest

/-- `pat in s` (Python substring test). -/
def containsStr (s pat : String) : Bool := containsSub pat.data s.data

/-- `s.endswith(pat)` (what `re.search(r'...$', s)` amounts to here). -/
def endsWithStr (s pat : String) : Bool := pat.data.isSuffixOf s.data

/-- `RouteDiscovery.REPORT_PATTERNS`: each regex `r'/xxxs?/'` is
transcribed as the two (or one) literal substrings it can match. -/
def REPORT_PATTERNS : List (String → Bool) :=
  [ fun u => containsStr u "/insight/" || containsStr u "/insights/",
    fun u => containsStr u "/research/",
    fun u => containsStr u "/report/" || containsStr u "/reports/",
    fun u => containsStr u "/publication/" || containsStr u "/publications/",
    fun u => containsStr u "/whitepaper/" || containsStr u "/whitepapers/",
    fun u => containsStr u "/white-paper/" || containsStr u "/white-papers/",
    fun u => containsStr u "/studies/",
    fun u => containsStr u "/analysis/",
    fun u => containsStr u "/thought-leadership/",
    fun u => containsStr u "/perspective/" || containsStr u "/perspectives/",
    fun u => containsStr u "/article/" || containsStr u "/articles/" ]

/-- `RouteDiscovery.DOCUMENT_PATTERNS`: each regex `r'\.xxxx?$'`
transcribed as end-of-string suffix tests. -/
def DOCUMENT_PATTERNS : List (String → Bool) :=
  [ fun u => endsWithStr u ".pdf",
    fun u => endsWithStr u ".doc" || endsWithStr u ".docx",
    fun u => endsWithStr u ".ppt" || endsWithStr u ".pptx",
    fun u => endsWithStr u ".xls" || endsWithStr u ".xlsx" ]

/-- `RouteDiscovery.TOPIC_KEYWORDS` (dict iteration = insertion order). -/
def TOPIC_KEYWORDS : List (String × List String) :=
  [ ("AI", ["artificial intelligence", "ai ", " ai", "machine learning", "ml ", " ml",
            "deep learning", "neural", "generative ai", "genai", "chatgpt", "llm"]),
    ("Quantum", ["quantum", "qubit"]),
    ("Blockchain", ["blockchain", "crypto", "web3", "defi", "nft", "distributed ledger"]),
    ("Cloud", ["cloud", "aws", "azure", "gcp", "saas", "paas", "iaas", "multicloud"]),
    ("Cybersecurity", ["cyber", "security", "threat", "breach", "ransomware", "zero trust"]),
    ("IoT", ["iot", "internet of things", "sensor", "connected device", "smart device"]),
    ("Data", ["data analytics", "big data", "data science", "business intelligence"]),
    ("Digital Transformation", ["digital transformation", "digitalization", "digital strategy"]),
    ("Automation", ["automation", "rpa", "robotic process", "hyperautomation"]),
    ("ESG", ["esg", "sustainability", "climate", "carbon", "green", "net zero"]),
    ("Metaverse", ["metaverse", "virtual reality", "vr", "ar", "augmented reality", "xr"]),
    ("5G", ["5g", "6g", "wireless", "telecom"]),
    ("Edge", ["edge computing", "edge ai", "fog computing"]) ]

/-- `RouteDiscovery._detect_topics(text)`. -/
def detect_topics (text : String) : List String :=
  let text_lower := lowerStr text
  TOPIC_KEYWORDS.foldl
    (fun topics tk =>
      if tk.2.any (fun kw => containsStr text_lower kw) then topics ++ [tk.1]
      else topics) []

/-- An `<a href=...>` anchor of a fetched page: its raw `href`, its
stripped text content, and its `title` attribute. -/
structure Anchor where
  href : String
  text : String
  titleAttr : String := ""
deriving DecidableEq, Repr

/-- The result of a successful `_fetch_page`: the page title plus the
parts of the `soup` that the crawler inspects — the count of
article-like repeated blocks (`soup.find_all(['article','div'],
class_=re.compile(r'card|item|article|post', re.I))`), the visible text
(`soup.get_text()`), and the anchor list (`soup.find_all('a', href=True)`). -/
structure PageData where
  title : String := ""
  articleCount : Nat := 0
  text : String := ""
  anchors : List Anchor := []
deriving DecidableEq, Repr

/-- `RouteDiscovery._find_documents(page_url, soup, base_url)`:
anchors whose lowered href matches a document pattern, with the link
text falling back to the `title` attribute. -/
def find_documents (anchors : List Anchor) (base_url : String) : List (String × String) :=
  anchors.foldl
    (fun docs a =>
      if DOCUMENT_PATTERNS.any (fun p => p (lowerStr a.href)) then
        docs ++ [(normalize_url a.href base_url,
                  if a.text = "" then a.titleAttr else a.text)]
      else docs) []

/-- The root-like paths of the homepage check in `_classify_page`. -/
def rootLikePaths : List (List Char) :=
  ["/", "", "/en", "/us", "/en-us"].map String.data

/-- The node-type decision sequence of `_classify_page`: document
patterns, then report patterns (listing vs single page by article
count), then root-like homepage paths, defaulting to `SECTION`. -/
def classifyType (url : String) (articleCount : Nat) : NodeType :=
  let url_lower := lowerStr url
  let t1 :=
    if DOCUMENT_PATTERNS.any (fun p => p url_lower) then NodeType.DOCUMENT
    else NodeType.UNKNOWN
  let t2 :=
    if t1 = NodeType.UNKNOWN then
      if REPORT_PATTERNS.any (fun p => p url_lower) then
        if articleCount > 3 then NodeType.LISTING else NodeType.REPORT_PAGE
      else t1
    else t1
  let t3 :=
    if t2 = NodeType.UNKNOWN then
      if (urlparseChars url.data []).path ∈ rootLikePaths then NodeType.HOME else t2
    else t2
  if t3 = NodeType.UNKNOWN then NodeType.SECTION else t3

/-- `RouteDiscovery._classify_page(url, page_data, depth, parent_url)`:
build the `GraphNode` (fresh `visit_count=1`, `last_visited=now`,
`discovered_at` stamped by `__post_init__`). -/
def classify_page (url : String) (page : PageData) (depth : Nat)
    (parent_url : Option String) (now : String) : GraphNode :=
  let node_type := classifyType url page.articleCount
  let page_text := lowerStr page.text
  let topics := detect_topics page_text
  let document_url :=
    if node_type = NodeType.REPORT_PAGE then
      match find_documents page.anchors (get_base_url url) with
      | [] => none
      | d :: _ => some d.1
    else none
  GraphNode.postInit now
    { url := url, node_type := node_type, title := page.title, topics := topics,
      depth := depth, parent_url := parent_url, document_url := document_url,
      last_visited := now, visit_count := 1 }

/-- `RouteDiscovery._extract_links(page_url, soup, base_url)`: skip
non-navigable hrefs, normalize, keep same-domain links, put
report/document-looking links in front, cap at 50. -/
def extract_links (anchors : List Anchor) (base_url : String) : List (String × String) :=
  let links := anchors.foldl
    (fun links a =>
      let href := a.href
      let link_text : String := ⟨a.text.data.take 100⟩
      if containsStr href "#" || containsStr href "javascript:" ||
         containsStr href "mailto:" || containsStr href "tel:" then links
      else
        let full_url := normalize_url href base_url
        if is_same_domain full_url base_url then
          let is_interesting :=
            (REPORT_PATTERNS ++ DOCUMENT_PATTERNS).any
              (fun p => p (lowerStr full_url))
          if is_interesting then (full_url, link_text) :: links
          else links ++ [(full_url, link_text)]
        else links) []
  links.take 50

/-! ## Bounded breadth-first discovery (`RouteDiscovery.discover_site`) -/

/-- The mutable state of the `discover_site` loop.  `fetch_log` is ghost
instrumentation recording each URL passed to `_fetch_page`, in order;
it affects nothing else. -/
structure DiscoverState where
  graph : SiteGraph
  visited : List String
  queue : List (String × Nat × Option String)
  pages_visited : Nat
  fetch_log : List String
deriving Repr

/-- Process one dequeued frontier entry (the body of the `while` loop in
`discover_site`, after the pop).  `fetch` models the
`_fetch_page` collaborator: `none` is a fetch failure. -/
def discoverStep (fetch : String → Option PageData) (base_url now : String)
    (maxDepth : Nat) (s : DiscoverState)
    (current_url₀ : String) (depth : Nat) (parent_url : Option String) : DiscoverState :=
  let current_url := normalize_url current_url₀ base_url
  if current_url ∈ s.visited ∨ depth > maxDepth then s
  else if ¬ is_same_domain current_url base_url then s
  else
    let s1 := { s with
      visited := s.visited ++ [current_url],
      pages_visited := s.pages_visited + 1,
      fetch_log := s.fetch_log ++ [current_url] }
    match fetch current_url with
    | none => s1
    | some page =>
      let node := classify_page current_url page depth parent_url now
      let g1 := s1.graph.add_node node now
      let g2 :=
        match parent_url with
        | some p => g1.add_edge p current_url "" "navigation"
        | none => g1
      let g3 :=
        if node.node_type = NodeType.LISTING then
          g2.register_report_route "reports" current_url
        else if node.node_type = NodeType.DOCUMENT then
          g2.register_report_route "documents" current_url
        else g2
      let links := extract_links page.anchors base_url
      let qg := links.foldl
        (fun (acc : List (String × Nat × Option String) × SiteGraph) lk =>
          if lk.1 ∈ s1.visited then acc
          else (acc.1 ++ [(lk.1, depth + 1, some current_url)],
                acc.2.add_edge current_url lk.1 lk.2 "navigation"))
        (s1.queue, g3)
      { s1 with graph := qg.2, queue := qg.1 }

/-- The `while queue and pages_visited < max_pages` loop of
`discover_site`. -/
def discoverLoop (fetch : String → Option PageData) (base_url now : String)
    (maxDepth maxPages : Nat) (s : DiscoverState) : DiscoverState :=
  match hq : s.queue with
  | [] => s
  | (current_url₀, depth, parent_url) :: rest =>
    if hp : s.pages_visited < maxPages then
      discoverLoop fetch base_url now maxDepth maxPages
        (discoverStep fetch base_url now maxDepth { s with queue := rest }
          current_url₀ depth parent_url)
    else s
termination_by (maxPages - s.pages_visited, s.queue.length)
decreasing_by
  have hstep :
      (((discoverStep fetch base_url now maxDepth { s with queue := rest }
          current_url₀ depth parent_url).pages_visited = s.pages_visited ∧
        (discoverStep fetch base_url now maxDepth { s with queue := rest }
          current_url₀ depth parent_url).queue = rest) ∨
       (discoverStep fetch base_url now maxDepth { s with queue := rest }
          current_url₀ depth parent_url).pages_visited = s.pages_visited + 1) := by
    unfold discoverStep
    by_cases h1 : normalize_url current_url₀ base_url ∈ s.visited ∨ depth > maxDepth
    · simp [h1]
    · by_cases h2 : is_same_domain (normalize_url current_url₀ base_url) base_url
      · rcases hf : fetch (normalize_url current_url₀ base_url) with _ | page
        · simp [h1, h2, hf]
        · right
          simp only [h1, h2, hf]
          simp
      · simp [h1, h2]
  rcases hstep with hsk | hvis
  · obtain ⟨h1, h2⟩ := hsk
    simp only [h1, h2]
    have hlen : rest.length < s.queue.length := by simp [hq]
    exact Prod.Lex.right _ (by simpa using hlen)
  · simp only [hvis]
    have : maxPages - (s.pages_visited + 1) < maxPages - s.pages_visited := by omega
    exact Prod.Lex.left _ _ (by simpa using this)

/-- `RouteDiscovery.discover_site(site_name, start_url, existing_graph)`
returning the whole final loop state (the Python method returns
`state.graph`; `visited`/`pages_visited`/`fetch_log` are the rest of
its local state). -/
def discover_site (fetch : String → Option PageData) (site_name start_url : String)
    (existing_graph : Option SiteGraph) (maxDepth maxPages : Nat)
    (now : String) : DiscoverState :=
  let base_url := get_base_url start_url
  let graph :=
    match existing_graph with
    | some g => g
    | none => SiteGraph.init site_name base_url now
  discoverLoop fetch base_url now maxDepth maxPages
    { graph := graph, visited := [], queue := [(start_url, 0, none)],
      pages_visited := 0, fetch_log := [] }

/-- Fuel-indexed version of `discoverLoop` by structural recursion (the
kernel can evaluate it); `discoverLoopFuel_spec` below shows it agrees
with `discoverLoop` whenever the fuel covers the iteration bound. -/
def discoverLoopFuel (fetch : String → Option PageData) (base_url now : String)
    (maxDepth maxPages : Nat) : Nat → DiscoverState → DiscoverState
  | 0, s => s
  | fuel + 1, s =>
    match s.queue with
    | [] => s
    | (cu, d, p) :: rest =>
      if s.pages_visited < maxPages then
        discoverLoopFuel fetch base_url now maxDepth maxPages fuel
          (discoverStep fetch base_url now maxDepth { s with queue := rest } cu d p)
      else s

/-- A deterministic fixture `PageFetcher` for concrete witnesses: two
fetchable pages and one URL whose fetch fails. -/
def fixtureFetch : String → Option PageData
  | "https://ex.com/a" =>
    some { title := "A", articleCount := 0, text := "cloud",
           anchors := [{ href := "/b", text := "B", titleAttr := "" },
                       { href := "/c", text := "C", titleAttr := "" }] }
  | "https://ex.com/b" =>
    some { title := "B", articleCount := 0, text := "", anchors := [] }
  | _ => none

/-- The spec's wording of domain comparison: ignore only a leading
`"www."` of a netloc.  Stated for comparison against the code's
`str.replace('www.', '')`. -/
def specStripLeadingWww (netloc : List Char) : List Char :=
  if "www.".data.isPrefixOf netloc then netloc.drop 4 else netloc

/-- An idle loop state over a given graph (used by concrete witnesses). -/
def mkState (g : SiteGraph) : DiscoverState :=
  { graph := g, visited := [], queue := [], pages_visited := 0, fetch_log := [] }

/-- A graph state with one prior node for `https://ex.com/a` carrying
`visit_count = 1` (used by the C9 witness). -/
def revisitState : DiscoverState :=
  { graph := (SiteGraph.init "ex" "https://ex.com" "T1").add_node
      { url := "https://ex.com/a", node_type := NodeType.SECTION, title := "A",
        topics := [], depth := 0, parent_url := none, discovered_at := "T1",
        last_visited := "T1", visit_count := 1, is_active := true,
        document_url := none, metadata := [] } "T1",
    visited := [], queue := [], pages_visited := 0, fetch_log := [] }

/-- The fixture page served for `https://ex.com/a`. -/
def pageA : PageData :=
  { title := "A", articleCount := 0, text := "cloud",
    anchors := [{ href := "/b", text := "B", titleAttr := "" },
                { href := "/c", text := "C", titleAttr := "" }] }

/-! ## Persistence (`SiteGraph.save` / `SiteGraph.load`,
`SiteGraphRegistry._load_all_graphs`)

The JSON document is modelled structurally: a field that Python would
index directly (raising `KeyError` when absent) is an `Option` that
`load` requires; a field read with `.get(key, default)` is an `Option`
defaulted on read.  A Python exception during load is an
`Except.error`. -/

/-- The serialized form of a `GraphNode` (`GraphNode.to_dict` output /
`from_dict` input). -/
structure NodeDoc where
  url : Option String := none
  node_type : Option String := none
  title : Option String := none
  topics : Option (List String) := none
  depth : Option Nat := none
  parent_url : Option (Option String) := none
  discovered_at : Option String := none
  last_visited : Option String := none
  visit_count : Option Nat := none
  is_active : Option Bool := none
  document_url : Option (Option String) := none
  metadata : Option (List (String × String)) := none
deriving DecidableEq, Repr

/-- `GraphNode.to_dict`: `asdict` plus the enum value string. -/
def GraphNode.to_dict (n : GraphNode) : NodeDoc :=
  { url := some n.url, node_type := some n.node_type.value, title := some n.title,
    topics := some n.topics, depth := some n.depth, parent_url := some n.parent_url,
    discovered_at := some n.discovered_at, last_visited := some n.last_visited,
    visit_count := some n.visit_count, is_active := some n.is_active,
    document_url := some n.document_url, metadata := some n.metadata }

/-- `GraphNode.from_dict`: `NodeType(value)` (`ValueError` on an unknown
value, `KeyError` on a missing one), the dataclass constructor
(`TypeError` when `url` is missing, defaults otherwise), then
`__post_init__`. -/
def GraphNode.from_dict (doc : NodeDoc) (now : String) : Except String GraphNode :=
  match doc.node_type with
  | none => .error "KeyError: node_type"
  | some nv =>
    match NodeType.fromValue nv with
    | none => .error "ValueError: invalid NodeType"
    | some nt =>
      match doc.url with
      | none => .error "TypeError: url required"
      | some u =>
        .ok (GraphNode.postInit now
          { url := u, node_type := nt, title := doc.title.getD "",
            topics := doc.topics.getD [], depth := doc.depth.getD 0,
            parent_url := doc.parent_url.getD none,
            discovered_at := doc.discovered_at.getD "",
            last_visited := doc.last_visited.getD "",
            visit_count := doc.visit_count.getD 0,
            is_active := doc.is_active.getD true,
            document_url := doc.document_url.getD none,
            metadata := doc.metadata.getD [] })

/-- The serialized form of a `GraphEdge`. -/
structure EdgeDoc where
  from_url : Option String := none
  to_url : Option String := none
  link_text : Option String := none
  edge_type : Option String := none
  weight : Option Nat := none
deriving DecidableEq, Repr

/-- `GraphEdge.to_dict` (`asdict`). -/
def GraphEdge.to_doc (e : GraphEdge) : EdgeDoc :=
  { from_url := some e.from_url, to_url := some e.to_url,
    link_text := some e.link_text, edge_type := some e.edge_type,
    weight := some e.weight }

/-- `GraphEdge(**edge_data)`: `TypeError` when a required field is
missing, dataclass defaults otherwise. -/
def GraphEdge.from_doc (doc : EdgeDoc) : Except String GraphEdge :=
  match doc.from_url with
  | none => .error "TypeError: from_url required"
  | some fu =>
    match doc.to_url with
    | none => .error "TypeError: to_url required"
    | some tu =>
      .ok { from_url := fu, to_url := tu, link_text := doc.link_text.getD "",
            edge_type := doc.edge_type.getD "navigation",
            weight := doc.weight.getD 1 }

/-- The whole-graph snapshot document written by `SiteGraph.save`. -/
structure GraphDoc where
  site_name : Option String := none
  base_url : Option String := none
  nodes : Option (List (String × NodeDoc)) := none
  edges : Option (List EdgeDoc) := none
  known_routes : Option (List (String × List String)) := none
  site_topics : Option (List String) := none
  created_at : Option String := none
  last_updated : Option String := none
deriving DecidableEq, Repr

/-- `SiteGraph.save`: serialize every field of the graph. -/
def SiteGraph.save (g : SiteGraph) : GraphDoc :=
  { site_name := some g.site_name, base_url := some g.base_url,
    nodes := some (g.nodes.map (fun kv => (kv.1, kv.2.to_dict))),
    edges := some (g.edges.map GraphEdge.to_doc),
    known_routes := some g.known_routes,
    site_topics := some g.site_topics,
    created_at := some g.created_at,
    last_updated := some g.last_updated }

/-- The node-reconstruction loop of `SiteGraph.load`
(`graph.nodes[url] = GraphNode.from_dict(node_data)`). -/
def loadNodesGo (now : String) (acc : List (String × GraphNode)) :
    List (String × NodeDoc) → Except String (List (String × GraphNode))
  | [] => .ok acc
  | (url, nd) :: rest =>
    match GraphNode.from_dict nd now with
    | .error e => .error e
    | .ok n => loadNodesGo now (dictInsert url n acc) rest

/-- The edge-reconstruction loop of `SiteGraph.load`: append the edge
and rebuild the adjacency entry. -/
def loadEdgesGo (accEdges : List GraphEdge) (accAdj : List (String × List String)) :
    List EdgeDoc → Except String (List GraphEdge × List (String × List String))
  | [] => .ok (accEdges, accAdj)
  | ed :: rest =>
    match GraphEdge.from_doc ed with
    | .error e => .error e
    | .ok e' =>
      let adj :=
        if dictContains e'.from_url accAdj then accAdj
        else dictInsert e'.from_url [] accAdj
      loadEdgesGo (accEdges ++ [e'])
        (dictModify e'.from_url (fun s => setInsert s e'.to_url) adj) rest

/-- `SiteGraph.load`: directly-indexed keys are required (`KeyError`
propagates), nodes and edges are rebuilt in order, the remaining fields
are read with `.get` defaults.  Any failure is an `Except.error` — no
default graph is substituted. -/
def SiteGraph.load (doc : GraphDoc) (now : String) : Except String SiteGraph :=
  match doc.site_name with
  | none => .error "KeyError: site_name"
  | some sn =>
    match doc.base_url with
    | none => .error "KeyError: base_url"
    | some bu =>
      match doc.nodes with
      | none => .error "KeyError: nodes"
      | some nds =>
        match doc.edges with
        | none => .error "KeyError: edges"
        | some eds =>
          match loadNodesGo now [] nds with
          | .error e => .error e
          | .ok nodes =>
            match loadEdgesGo [] [] eds with
            | .error e => .error e
            | .ok (edges, adjacency) =>
              .ok { SiteGraph.init sn bu now with
                nodes := nodes, edges := edges, adjacency := adjacency,
                known_routes := doc.known_routes.getD [],
                site_topics := setUpdate [] (doc.site_topics.getD []),
                created_at := doc.created_at.getD "",
                last_updated := doc.last_updated.getD "" }

/-- `SiteGraphRegistry._load_all_graphs`: one persisted file is either a
read failure (`Except.error` input) or a document; each file's load is
wrapped in `try/except`, a failure being logged and skipped. -/
def load_all_graphs (files : List (Except String GraphDoc)) (now : String) :
    List (String × SiteGraph) :=
  files.foldl
    (fun graphs f =>
      match f >>= (fun doc => SiteGraph.load doc now) with
      | .error _ => graphs
      | .ok g => dictInsert (lowerStr g.site_name) g graphs) []

/-- A netloc character as produced by `_get_base_url` on an http(s)
start URL: printable and free of the netloc delimiters. -/
def hostOk (l : List Char) : Bool :=
  l.all (fun c => 0x20 < c.toNat && c ≠ '/' && c ≠ '?' && c ≠ '#')

/-- A base URL of the exact shape `_get_base_url` yields for an http(s)
start URL: `http://netloc` or `https://netloc`. -/
def isHttpBase (base : String) : Bool :=
  ("http://".data.isPrefixOf base.data && hostOk (base.data.drop 7)) ||
  ("https://".data.isPrefixOf base.data && hostOk (base.data.drop 8))

/-- A small concrete graph exercising every persisted field (used by the
C4 and C8 witnesses). -/
def roundtripGraph : SiteGraph :=
  ((SiteGraph.init "ex" "https://e.com" "T0").add_node
      { url := "https://e.com/a", node_type := NodeType.LISTING, title := "A",
        topics := ["AI"], depth := 0, parent_url := none, discovered_at := "T0",
        last_visited := "T0", visit_count := 1, is_active := true,
        document_url := none, metadata := [("k", "v")] } "T1").add_edge
    "https://e.com/a" "https://e.com/b.pdf" "B" "download"

/-- A malformed persisted document: every key missing. -/
def badDoc : GraphDoc := {}

/-! ## `SiteGraph.find_path` (BFS) -/

/-- The inner `for neighbor in self.adjacency.get(current, [])` loop of
`find_path`: scans the neighbor list in order; returns the completed path
as soon as a neighbor equals `to_url`, otherwise enqueues every unvisited
neighbor (marking it visited at enqueue time). -/
def bfsScan (to_url : String) (path : List String) :
    List String → List (String × List String) → List String →
    Option (List String) × List (String × List String) × List String
  | [], q, vis => (none, q, vis)
  | n :: ns, q, vis =>
    if n = to_url then (some (path ++ [n]), q, vis)
    else if n ∈ vis then bfsScan to_url path ns q vis
    else bfsScan to_url path ns (q ++ [(n, path ++ [n])]) (setInsert vis n)

/-- The `while queue:` loop of `find_path`.  The Python loop terminates
because each URL is enqueued at most once; here that bound appears as a
structural fuel argument, and `bfsLoop_some` below proves the fuel used
by `find_path` always suffices, so the `none` branch is unreachable. -/
def bfsLoop (adj : List (String × List String)) (to_url : String) :
    Nat → List (String × List String) → List String → Option (List String)
  | 0, _, _ => none
  | _ + 1, [], _ => some []
  | fuel + 1, (current, path) :: rest, visited =>
    match bfsScan to_url path ((dictGet current adj).getD []) rest visited with
    | (some p, _, _) => some p
    | (none, q, vis) => bfsLoop adj to_url fuel q vis

/-- All URLs appearing in adjacency value sets (used only to size the
BFS fuel). -/
def adjVals (adj : List (String × List String)) : List String :=
  (adj.map Prod.snd).join

/-- `SiteGraph.find_path`: shortest path by BFS; empty when either
endpoint is not a node. -/
def find_path (g : SiteGraph) (from_url to_url : String) : List String :=
  if !dictContains from_url g.nodes || !dictContains to_url g.nodes then []
  else if from_url = to_url then [from_url]
  else
    (bfsLoop g.adjacency to_url ((adjVals g.adjacency).length + 2)
      [(from_url, [from_url])] [from_url]).getD []

/-- A walk through the adjacency map: nonempty, and every consecutive
pair is linked by `adjacency.get(x, [])`. -/
def pathOk (adj : List (String × List String)) : List String → Bool
  | [] => false
  | [_] => true
  | x :: y :: rest =>
    decide (y ∈ (dictGet x adj).getD []) && pathOk adj (y :: rest)

/-- The BFS loop invariant: queue entries carry valid shortest paths
from `a`, queue path lengths are sorted and span at most two values,
the target is unseen, fully processed vertices have all their neighbors
visited, and every start-anchored walk no longer than every queued path
ends in a visited vertex. -/
structure BfsInv (adj : List (String × List String)) (a t : String)
    (qu : List (String × List String)) (vis : List String) : Prop where
  hq : ∀ e ∈ qu, pathOk adj e.2 = true ∧ e.2.head? = some a ∧
      e.2.getLast? = some e.1
  hqv : ∀ e ∈ qu, e.1 ∈ vis
  hqt : ∀ e ∈ qu, e.1 ≠ t
  htv : t ∉ vis
  hav : a ∈ vis
  hsort : qu.Pairwise (fun u v => u.2.length ≤ v.2.length)
  hwin : ∀ e ∈ qu, ∀ f ∈ qu, e.2.length ≤ f.2.length + 1
  hshort : ∀ e ∈ qu, ∀ r, pathOk adj r = true → r.head? = some a →
      r.getLast? = some e.1 → e.2.length ≤ r.length
  hclosed : ∀ x ∈ vis, (∀ e ∈ qu, e.1 ≠ x) →
      ∀ y ∈ (dictGet x adj).getD [], y ∈ vis ∧ y ≠ t
  hcov : ∀ r, pathOk adj r = true → r.head? = some a →
      (∀ e ∈ qu, r.length ≤ e.2.length) → ∀ z, r.getLast? = some z → z ∈ vis

/-- Concrete graph for the C1 counterexample: node `a` only, plus an
edge `a → b` recorded before `b` is visited (so `b` has no node). -/
def c1Graph : SiteGraph :=
  SiteGraph.add_edge
    (SiteGraph.add_node (SiteGraph.init "ex" "https://ex.com" "T")
      { url := "https://ex.com/a" } "T")
    "https://ex.com/a" "https://ex.com/b"

/-- Concrete graph for the C1 witness: nodes `a` and `b` and the edge
`a → b`. -/
def c1WGraph : SiteGraph :=
  SiteGraph.add_edge
    (SiteGraph.add_node
      (SiteGraph.add_node (SiteGraph.init "ex" "https://ex.com" "T")
        { url := "https://ex.com/a" } "T")
      { url := "https://ex.com/b" } "T")
    "https://ex.com/a" "https://ex.com/b"

/-! ## Structural lemmas about one discovery step -/

theorem dictGet_dictInsert {α : Type} (k u : String) (v : α) (d : List (String × α)) :
    dictGet u (dictInsert k v d) = if k = u then some v else dictGet u d := by
  induction d with
  | nil => by_cases h : k = u <;> simp [dictInsert, dictGet, h]
  | cons hd tl ih =>
    obtain ⟨k', v'⟩ := hd
    by_cases hk : k' = k
    · subst hk
      by_cases hu : k' = u <;> simp [dictInsert, dictGet, hu]
    · by_cases hu : k' = u
      · subst hu
        have : ¬ k = k' := fun h => hk h.symm
        simp [dictInsert, dictGet, hk, this]
      · simp [dictInsert, dictGet, hk, hu, ih]

theorem dictInsert_length_le {α : Type} (k : String) (v : α) (d : List (String × α)) :
    (dictInsert k v d).length ≤ d.length + 1 := by
  induction d with
  | nil => simp [dictInsert]
  | cons hd tl ih =>
    obtain ⟨k', v'⟩ := hd
    by_cases hk : k' = k <;> simp [dictInsert, hk] <;> omega

theorem dictContains_dictInsert_mono {α : Type} (k u : String) (v : α)
    (d : List (String × α)) (h : dictContains u d = true) :
    dictContains u (dictInsert k v d) = true := by
  by_cases hk : k = u
  · subst hk
    exact dictContains_dictInsert_self k v d
  · simpa [dictContains, dictGet_dictInsert, hk] using h

theorem add_edge_nodes (g : SiteGraph) (a b t ty : String) :
    (g.add_edge a b t ty).nodes = g.nodes := rfl

theorem register_report_route_nodes (g : SiteGraph) (rt u : String) :
    (g.register_report_route rt u).nodes = g.nodes := by
  unfold SiteGraph.register_report_route
  split <;> rfl

theorem links_foldl_nodes (links : List (String × String)) (visited : List String)
    (cu : String) (d : Nat) (q : List (String × Nat × Option String)) (g : SiteGraph) :
    ((links.foldl
      (fun (acc : List (String × Nat × Option String) × SiteGraph) lk =>
        if lk.1 ∈ visited then acc
        else (acc.1 ++ [(lk.1, d, some cu)], acc.2.add_edge cu lk.1 lk.2 "navigation"))
      (q, g)).2).nodes = g.nodes := by
  induction links generalizing q g with
  | nil => rfl
  | cons hd tl ih =>
    by_cases hm : hd.1 ∈ visited
    · simpa [hm] using ih q g
    · simpa [hm] using ih (q ++ [(hd.1, d, some cu)]) (g.add_edge cu hd.1 hd.2 "navigation")

theorem add_node_nodes (g : SiteGraph) (n : GraphNode) (now : String) :
    (g.add_node n now).nodes = dictInsert n.url n g.nodes := rfl

theorem register_ite_nodes (g : SiteGraph) (nt : NodeType) (cu : String) :
    (if nt = NodeType.LISTING then g.register_report_route "reports" cu
     else if nt = NodeType.DOCUMENT then g.register_report_route "documents" cu
     else g).nodes = g.nodes := by
  split
  · exact register_report_route_nodes g "reports" cu
  · split
    · exact register_report_route_nodes g "documents" cu
    · rfl

theorem parent_match_nodes (g : SiteGraph) (p : Option String) (cu : String) :
    (match p with
     | some pp => g.add_edge pp cu "" "navigation"
     | none => g).nodes = g.nodes := by
  cases p <;> rfl

theorem classify_page_url (u : String) (pg : PageData) (d : Nat)
    (p : Option String) (now : String) : (classify_page u pg d p now).url = u := by
  unfold classify_page GraphNode.postInit
  split <;> rfl

theorem classify_page_visit_count (u : String) (pg : PageData) (d : Nat)
    (p : Option String) (now : String) : (classify_page u pg d p now).visit_count = 1 := by
  unfold classify_page GraphNode.postInit
  split <;> rfl

theorem classify_page_last_visited (u : String) (pg : PageData) (d : Nat)
    (p : Option String) (now : String) : (classify_page u pg d p now).last_visited = now := by
  unfold classify_page GraphNode.postInit
  split <;> rfl

theorem classify_page_depth (u : String) (pg : PageData) (d : Nat)
    (p : Option String) (now : String) : (classify_page u pg d p now).depth = d := by
  unfold classify_page GraphNode.postInit
  split <;> rfl

/-- A step either skips its entry (state unchanged) or counts one more
visited page. -/
theorem discoverStep_measure (fetch : String → Option PageData) (base_url now : String)
    (maxDepth : Nat) (s : DiscoverState)
    (u : String) (d : Nat) (p : Option String) :
    ((discoverStep fetch base_url now maxDepth s u d p).pages_visited = s.pages_visited ∧
     (discoverStep fetch base_url now maxDepth s u d p).queue = s.queue) ∨
    (discoverStep fetch base_url now maxDepth s u d p).pages_visited = s.pages_visited + 1 := by
  unfold discoverStep
  by_cases h1 : normalize_url u base_url ∈ s.visited ∨ d > maxDepth
  · simp [h1]
  · by_cases h2 : is_same_domain (normalize_url u base_url) base_url
    · rcases hf : fetch (normalize_url u base_url) with _ | page
      · simp [h1, h2, hf]
      · right
        simp only [h1, h2, hf]
        simp
    · simp [h1, h2]

/-- Full case analysis of one `discover_site` loop iteration: either the
entry is skipped with the state untouched, or exactly one page is
counted, marked visited and fetched — with the node upsert happening
only on fetch success. -/
theorem discoverStep_cases (fetch : String → Option PageData) (base_url now : String)
    (maxDepth : Nat) (s : DiscoverState) (u : String) (d : Nat) (p : Option String) :
    (discoverStep fetch base_url now maxDepth s u d p = s) ∨
    (∃ c, c = normalize_url u base_url ∧ c ∉ s.visited ∧ d ≤ maxDepth ∧
      (discoverStep fetch base_url now maxDepth s u d p).visited = s.visited ++ [c] ∧
      (discoverStep fetch base_url now maxDepth s u d p).pages_visited = s.pages_visited + 1 ∧
      (discoverStep fetch base_url now maxDepth s u d p).fetch_log = s.fetch_log ++ [c] ∧
      ((fetch c = none ∧ (discoverStep fetch base_url now maxDepth s u d p).graph = s.graph) ∨
       (∃ page, fetch c = some page ∧
         (discoverStep fetch base_url now maxDepth s u d p).graph.nodes =
           dictInsert c (classify_page c page d p now) s.graph.nodes))) := by
  by_cases h1 : normalize_url u base_url ∈ s.visited ∨ d > maxDepth
  · left
    simp [discoverStep, h1]
  · by_cases h2 : is_same_domain (normalize_url u base_url) base_url
    · right
      refine ⟨normalize_url u base_url, rfl, ?_, ?_, ?_⟩
      · exact fun hm => h1 (Or.inl hm)
      · omega
      · rcases hf : fetch (normalize_url u base_url) with _ | page
        · refine ⟨?_, ?_, ?_, Or.inl ⟨rfl, ?_⟩⟩ <;>
            simp [discoverStep, h1, h2, hf]
        · refine ⟨?_, ?_, ?_, Or.inr ⟨page, rfl, ?_⟩⟩
          · simp [discoverStep, h1, h2, hf]
          · simp [discoverStep, h1, h2, hf]
          · simp [discoverStep, h1, h2, hf]
          · simp only [discoverStep]
            rw [if_neg h1, if_neg (by simp [h2]), hf]
            dsimp only
            rw [links_foldl_nodes, register_ite_nodes, parent_match_nodes]
            rw [add_node_nodes, classify_page_url]
    · left
      simp [discoverStep, h1, h2]

/-! ## Loop unfolding and master invariant of `discover_site` -/

theorem discoverLoop_eq_nil (fetch : String → Option PageData) (base_url now : String)
    (maxD maxP : Nat) (s : DiscoverState) (h : s.queue = []) :
    discoverLoop fetch base_url now maxD maxP s = s := by
  obtain ⟨g, v, q, pg, fl⟩ := s
  simp only at h
  subst h
  rw [discoverLoop]

theorem discoverLoop_eq_stop (fetch : String → Option PageData) (base_url now : String)
    (maxD maxP : Nat) (s : DiscoverState) (cu : String) (d : Nat) (p : Option String)
    (rest : List (String × Nat × Option String))
    (h : s.queue = (cu, d, p) :: rest) (hp : ¬ s.pages_visited < maxP) :
    discoverLoop fetch base_url now maxD maxP s = s := by
  obtain ⟨g, v, q, pg, fl⟩ := s
  simp only at h hp
  subst h
  rw [discoverLoop]
  simp [hp]

theorem discoverLoop_eq_cons (fetch : String → Option PageData) (base_url now : String)
    (maxD maxP : Nat) (s : DiscoverState) (cu : String) (d : Nat) (p : Option String)
    (rest : List (String × Nat × Option String))
    (h : s.queue = (cu, d, p) :: rest) (hp : s.pages_visited < maxP) :
    discoverLoop fetch base_url now maxD maxP s =
      discoverLoop fetch base_url now maxD maxP
        (discoverStep fetch base_url now maxD { s with queue := rest } cu d p) := by
  obtain ⟨g, v, q, pg, fl⟩ := s
  simp only at h hp
  subst h
  rw [discoverLoop]
  simp [hp]

theorem extract_links_length_le (anchors : List Anchor) (base_url : String) :
    (extract_links anchors base_url).length ≤ 50 := by
  unfold extract_links
  dsimp only
  rw [List.length_take]
  exact min_le_left _ _

theorem links_foldl_queue_len (links : List (String × String)) (visited : List String)
    (cu : String) (d : Nat) (q : List (String × Nat × Option String)) (g : SiteGraph) :
    ((links.foldl
      (fun (acc : List (String × Nat × Option String) × SiteGraph) lk =>
        if lk.1 ∈ visited then acc
        else (acc.1 ++ [(lk.1, d, some cu)], acc.2.add_edge cu lk.1 lk.2 "navigation"))
      (q, g)).1).length ≤ q.length + links.length := by
  induction links generalizing q g with
  | nil => simp
  | cons hd tl ih =>
    by_cases hm : hd.1 ∈ visited
    · have := ih q g
      simp [hm]
      omega
    · have := ih (q ++ [(hd.1, d, some cu)]) (g.add_edge cu hd.1 hd.2 "navigation")
      simp [hm]
      simp at this
      omega

theorem discoverStep_queue_le (fetch : String → Option PageData) (base_url now : String)
    (maxDepth : Nat) (s : DiscoverState) (u : String) (d : Nat) (p : Option String) :
    (discoverStep fetch base_url now maxDepth s u d p).queue.length ≤ s.queue.length + 50 := by
  by_cases h1 : normalize_url u base_url ∈ s.visited ∨ d > maxDepth
  · simp [discoverStep, h1]
  · by_cases h2 : is_same_domain (normalize_url u base_url) base_url
    · rcases hf : fetch (normalize_url u base_url) with _ | page
      · simp [discoverStep, h1, h2, hf]
      · simp only [discoverStep]
        rw [if_neg h1, if_neg (by simp [h2]), hf]
        dsimp only
        have he := extract_links_length_le page.anchors base_url
        refine le_trans (links_foldl_queue_len _ _ _ _ _ _) ?_
        omega
    · simp [discoverStep, h1, h2]

/-- With enough fuel, the structural loop equals the well-founded one. -/
theorem discoverLoopFuel_spec (fetch : String → Option PageData) (base_url now : String)
    (maxD maxP : Nat) (s : DiscoverState) :
    ∀ fuel, s.queue.length + 50 * (maxP - s.pages_visited) ≤ fuel →
      discoverLoopFuel fetch base_url now maxD maxP fuel s =
        discoverLoop fetch base_url now maxD maxP s := by
  induction s using discoverLoop.induct fetch base_url now maxD maxP with
  | case1 x hq =>
    intro fuel _
    rw [discoverLoop_eq_nil fetch base_url now maxD maxP x hq]
    cases fuel with
    | zero => rfl
    | succ f => simp [discoverLoopFuel, hq]
  | case3 x cu d p rest hq hp' =>
    intro fuel hf
    rw [discoverLoop_eq_stop fetch base_url now maxD maxP x cu d p rest hq hp']
    rw [hq] at hf
    simp at hf
    cases fuel with
    | zero => omega
    | succ f => simp [discoverLoopFuel, hq, hp']
  | case2 x cu d p rest hq hp' ih =>
    intro fuel hf
    rw [discoverLoop_eq_cons fetch base_url now maxD maxP x cu d p rest hq hp']
    rw [hq] at hf
    simp only [List.length_cons] at hf
    obtain ⟨f, rfl⟩ : ∃ f, fuel = f + 1 := ⟨fuel - 1, by omega⟩
    have hql := discoverStep_queue_le fetch base_url now maxD { x with queue := rest } cu d p
    simp only at hql
    have hcases := discoverStep_measure fetch base_url now maxD { x with queue := rest } cu d p
    have hbound : (discoverStep fetch base_url now maxD { x with queue := rest } cu d p).queue.length +
        50 * (maxP - (discoverStep fetch base_url now maxD { x with queue := rest } cu d p).pages_visited) ≤ f := by
      rcases hcases with ⟨hpg, hqe⟩ | hpg
      · rw [hpg, hqe]
        simp only
        omega
      · rw [hpg]
        simp only
        omega
    rw [show discoverLoopFuel fetch base_url now maxD maxP (f + 1) x =
        (match x.queue with
         | [] => x
         | (cu, d, p) :: rest =>
           if x.pages_visited < maxP then
             discoverLoopFuel fetch base_url now maxD maxP f
               (discoverStep fetch base_url now maxD { x with queue := rest } cu d p)
           else x) from rfl]
    rw [hq]
    simp only [hp', if_true]
    exact ih f hbound

/-- Master invariant of the discovery loop, combining the budget,
visited-set, node-count, node-depth, key-monotonicity and fetch-log
facts used by the claims about `discover_site`. -/
theorem discoverLoop_master (fetch : String → Option PageData) (base_url now : String)
    (maxD maxP : Nat) (s : DiscoverState) :
    s.pages_visited ≤ maxP →
    ((discoverLoop fetch base_url now maxD maxP s).pages_visited ≤ maxP ∧
     ((discoverLoop fetch base_url now maxD maxP s).queue = [] ∨
      (discoverLoop fetch base_url now maxD maxP s).pages_visited = maxP) ∧
     (discoverLoop fetch base_url now maxD maxP s).visited.length + s.pages_visited =
       s.visited.length + (discoverLoop fetch base_url now maxD maxP s).pages_visited ∧
     (s.visited.Nodup → (discoverLoop fetch base_url now maxD maxP s).visited.Nodup) ∧
     (discoverLoop fetch base_url now maxD maxP s).graph.nodes.length + s.pages_visited ≤
       s.graph.nodes.length + (discoverLoop fetch base_url now maxD maxP s).pages_visited ∧
     (∀ u n, dictGet u (discoverLoop fetch base_url now maxD maxP s).graph.nodes = some n →
       dictGet u s.graph.nodes = some n ∨ n.depth ≤ maxD) ∧
     (∀ u, dictContains u s.graph.nodes = true →
       dictContains u (discoverLoop fetch base_url now maxD maxP s).graph.nodes = true) ∧
     (discoverLoop fetch base_url now maxD maxP s).fetch_log.length + s.pages_visited =
       s.fetch_log.length + (discoverLoop fetch base_url now maxD maxP s).pages_visited ∧
     (s.fetch_log.Nodup → (∀ x ∈ s.fetch_log, x ∈ s.visited) →
       ((discoverLoop fetch base_url now maxD maxP s).fetch_log.Nodup ∧
        ∀ x ∈ (discoverLoop fetch base_url now maxD maxP s).fetch_log,
          x ∈ (discoverLoop fetch base_url now maxD maxP s).visited)) ∧
     (∀ u, fetch u = none →
       dictGet u (discoverLoop fetch base_url now maxD maxP s).graph.nodes =
         dictGet u s.graph.nodes)) := by
  induction s using discoverLoop.induct fetch base_url now maxD maxP with
  | case1 x hq =>
    intro hp
    rw [discoverLoop_eq_nil fetch base_url now maxD maxP x hq]
    refine ⟨hp, Or.inl hq, by omega, fun h => h, by omega, fun u n h => Or.inl h,
      fun u h => h, by omega, fun h1 h2 => ⟨h1, h2⟩, fun u _ => rfl⟩
  | case3 x cu d p rest hq hp' =>
    intro hp
    rw [discoverLoop_eq_stop fetch base_url now maxD maxP x cu d p rest hq hp']
    refine ⟨hp, Or.inr (by omega), by omega, fun h => h, by omega, fun u n h => Or.inl h,
      fun u h => h, by omega, fun h1 h2 => ⟨h1, h2⟩, fun u _ => rfl⟩
  | case2 x cu d p rest hq hp' ih =>
    intro hp
    rw [discoverLoop_eq_cons fetch base_url now maxD maxP x cu d p rest hq hp']
    rcases discoverStep_cases fetch base_url now maxD { x with queue := rest } cu d p with
      hskip | ⟨c, hc, hcv, hcd, hvis, hpg, hlog, hgr⟩
    · rw [hskip]
      have ih' := ih
      rw [hskip] at ih'
      have := ih' (by simpa using hp)
      simpa using this
    · set t := discoverStep fetch base_url now maxD { x with queue := rest } cu d p with ht
      have hps : t.pages_visited = x.pages_visited + 1 := by simpa using hpg
      have hvs : t.visited = x.visited ++ [c] := by simpa using hvis
      have hls : t.fetch_log = x.fetch_log ++ [c] := by simpa using hlog
      have hcv' : c ∉ x.visited := by simpa using hcv
      have htle : t.pages_visited ≤ maxP := by omega
      obtain ⟨i1, i2, i3, i4, i5, i6, i7, i8, i9, i10⟩ := ih htle
      -- facts about the graph of `t`
      have hgraph :
          (t.graph.nodes.length ≤ x.graph.nodes.length + 1 ∧
           (∀ u n, dictGet u t.graph.nodes = some n →
             dictGet u x.graph.nodes = some n ∨ n.depth ≤ maxD) ∧
           (∀ u, dictContains u x.graph.nodes = true →
             dictContains u t.graph.nodes = true) ∧
           (∀ u, fetch u = none →
             dictGet u t.graph.nodes = dictGet u x.graph.nodes)) := by
        rcases hgr with ⟨hfn, hgeq⟩ | ⟨page, hfs, hnodes⟩
        · rw [hgeq]
          exact ⟨by simp, fun u n h => Or.inl h, fun u h => h, fun u _ => rfl⟩
        · rw [hnodes]
          refine ⟨?_, ?_, ?_, ?_⟩
          · simpa using dictInsert_length_le c (classify_page c page d p now) x.graph.nodes
          · intro u n h
            rw [dictGet_dictInsert] at h
            by_cases hcu : c = u
            · rw [if_pos hcu] at h
              right
              cases h
              simp [classify_page_depth]
              omega
            · rw [if_neg hcu] at h
              exact Or.inl h
          · intro u h
            exact dictContains_dictInsert_mono c u _ _ h
          · intro u hfu
            rw [dictGet_dictInsert]
            have : ¬ c = u := by
              intro he
              rw [← he] at hfu
              rw [hfs] at hfu
              cases hfu
            rw [if_neg this]
      obtain ⟨g1, g2, g3, g4⟩ := hgraph
      refine ⟨i1, i2, ?_, ?_, ?_, ?_, ?_, ?_, ?_, ?_⟩
      · rw [hvs] at i3
        simp at i3
        omega
      · intro hnd
        apply i4
        rw [hvs]
        simpa [List.nodup_append] using ⟨hnd, hcv'⟩
      · omega
      · intro u n h
        rcases i6 u n h with h' | h'
        · exact g2 u n h'
        · exact Or.inr h'
      · intro u h
        exact i7 u (g3 u h)
      · rw [hls] at i8
        simp at i8
        omega
      · intro h1 h2
        apply i9
        · rw [hls]
          have hcl : c ∉ x.fetch_log := fun hm => hcv' (h2 c hm)
          simpa [List.nodup_append] using ⟨h1, hcl⟩
        · intro z hz
          rw [hls] at hz
          rw [hvs]
          rcases List.mem_append.mp hz with hz' | hz'
          · exact List.mem_append.mpr (Or.inl (h2 z hz'))
          · exact List.mem_append.mpr (Or.inr hz')
      · intro u hfu
        rw [i10 u hfu]
        exact g4 u hfu

/-! ## Claim C3: discovery budgets -/

/-- C3: a `discover_site` run visits at most `max_pages` distinct
canonical URLs (`visited` is duplicate-free and as long as the page
count), records at most `max_pages` new nodes, never stores a node of
depth exceeding `max_depth` (pre-existing nodes of the supplied graph
aside), and the loop stops exactly when the frontier is empty or the
page budget is reached. -/
theorem C3_discovery_budgets (fetch : String → Option PageData)
    (site_name start_url : String) (existing_graph : Option SiteGraph)
    (maxD maxP : Nat) (now : String) :
    let st := discover_site fetch site_name start_url existing_graph maxD maxP now
    let g0 := match existing_graph with
      | some g => g
      | none => SiteGraph.init site_name (get_base_url start_url) now
    st.pages_visited ≤ maxP ∧
    st.visited.Nodup ∧
    st.visited.length = st.pages_visited ∧
    st.graph.nodes.length ≤ g0.nodes.length + maxP ∧
    (∀ u n, dictGet u st.graph.nodes = some n →
      dictGet u g0.nodes = some n ∨ n.depth ≤ maxD) ∧
    (st.queue = [] ∨ st.pages_visited = maxP) := by
  intro st g0
  obtain ⟨m1, m2, m3, m4, m5, m6, m7, m8, m9, m10⟩ :=
    discoverLoop_master fetch (get_base_url start_url) now maxD maxP
      { graph := g0, visited := [], queue := [(start_url, 0, none)],
        pages_visited := 0, fetch_log := [] } (Nat.zero_le maxP)
  refine ⟨m1, m4 (by simp), ?_, ?_, m6, m2⟩
  · simpa using m3
  · have h5 : st.graph.nodes.length ≤ g0.nodes.length + st.pages_visited := by
      simpa using m5
    have h1 : st.pages_visited ≤ maxP := m1
    omega

/-- Witness for C3 on the fixture run: the node stored for
`https://ex.com/b` satisfies the depth disjunction. -/
theorem C3_discovery_budgets_witness :
    dictGet "https://ex.com/b"
        (discover_site fixtureFetch "ex" "https://ex.com/a" none 1 10 "T").graph.nodes =
      some (classify_page "https://ex.com/b"
        { title := "B", articleCount := 0, text := "", anchors := [] } 1
        (some "https://ex.com/a") "T") ∧
    (dictGet "https://ex.com/b"
        (SiteGraph.init "ex" (get_base_url "https://ex.com/a") "T").nodes =
      some (classify_page "https://ex.com/b"
        { title := "B", articleCount := 0, text := "", anchors := [] } 1
        (some "https://ex.com/a") "T") ∨
     (classify_page "https://ex.com/b"
        { title := "B", articleCount := 0, text := "", anchors := [] } 1
        (some "https://ex.com/a") "T").depth ≤ 1) := by
  have hfuel : discover_site fixtureFetch "ex" "https://ex.com/a" none 1 10 "T" =
      discoverLoopFuel fixtureFetch (get_base_url "https://ex.com/a") "T" 1 10 600
        { graph := SiteGraph.init "ex" (get_base_url "https://ex.com/a") "T", visited := [],
          queue := [("https://ex.com/a", 0, none)], pages_visited := 0, fetch_log := [] } :=
    (discoverLoopFuel_spec fixtureFetch (get_base_url "https://ex.com/a") "T" 1 10
      { graph := SiteGraph.init "ex" (get_base_url "https://ex.com/a") "T", visited := [],
        queue := [("https://ex.com/a", 0, none)], pages_visited := 0, fetch_log := [] }
      600 (by decide)).symm
  have h : dictGet "https://ex.com/b"
      (discover_site fixtureFetch "ex" "https://ex.com/a" none 1 10 "T").graph.nodes =
      some (classify_page "https://ex.com/b"
        { title := "B", articleCount := 0, text := "", anchors := [] } 1
        (some "https://ex.com/a") "T") := by
    rw [hfuel]
    decide
  exact ⟨h, (C3_discovery_budgets fixtureFetch "ex" "https://ex.com/a" none 1 10 "T").2.2.2.2.1
    "https://ex.com/b" _ h⟩

/-! ## Claim C10: budget consumed before the fetch -/

/-- C10: every page counted toward the budget corresponds to exactly one
fetch attempt, no URL is ever fetched twice in a run, every fetched URL
sits in the visited set, and a URL whose fetch fails contributes no node
(its entry in `nodes` is whatever the initial graph had). -/
theorem C10_fetch_failure_consumes_budget (fetch : String → Option PageData)
    (site_name start_url : String) (existing_graph : Option SiteGraph)
    (maxD maxP : Nat) (now : String) :
    let st := discover_site fetch site_name start_url existing_graph maxD maxP now
    let g0 := match existing_graph with
      | some g => g
      | none => SiteGraph.init site_name (get_base_url start_url) now
    st.fetch_log.Nodup ∧
    st.fetch_log.length = st.pages_visited ∧
    (∀ x ∈ st.fetch_log, x ∈ st.visited) ∧
    (∀ u, fetch u = none → dictGet u st.graph.nodes = dictGet u g0.nodes) := by
  intro st g0
  obtain ⟨m1, m2, m3, m4, m5, m6, m7, m8, m9, m10⟩ :=
    discoverLoop_master fetch (get_base_url start_url) now maxD maxP
      { graph := g0, visited := [], queue := [(start_url, 0, none)],
        pages_visited := 0, fetch_log := [] } (Nat.zero_le maxP)
  have h9 := m9 (by simp) (by simp)
  refine ⟨h9.1, ?_, h9.2, m10⟩
  simpa using m8

/-- Witness for C10 on the fixture run: `https://ex.com/c` fails to
fetch, consumes budget but yields no node. -/
theorem C10_fetch_failure_consumes_budget_witness :
    fixtureFetch "https://ex.com/c" = none ∧
    dictGet "https://ex.com/c"
        (discover_site fixtureFetch "ex" "https://ex.com/a" none 1 10 "T").graph.nodes =
      dictGet "https://ex.com/c"
        (SiteGraph.init "ex" (get_base_url "https://ex.com/a") "T").nodes ∧
    (discover_site fixtureFetch "ex" "https://ex.com/a" none 1 10 "T").fetch_log.length =
      (discover_site fixtureFetch "ex" "https://ex.com/a" none 1 10 "T").pages_visited := by
  have h : fixtureFetch "https://ex.com/c" = none := by decide
  exact ⟨h,
    (C10_fetch_failure_consumes_budget fixtureFetch "ex" "https://ex.com/a" none 1 10 "T").2.2.2
      "https://ex.com/c" h,
    (C10_fetch_failure_consumes_budget fixtureFetch "ex" "https://ex.com/a" none 1 10 "T").2.1⟩

/-! ## Claim C9 (corrected): revisits replace the node, resetting
`visit_count` -/

/-- C9 counterexample: after a second discovery run over the same graph,
the revisited node's `visit_count` is still `1` (freshly reset), not the
accumulated `2` the claim asserts; `last_visited` is updated. -/
theorem C9_counterexample :
    (dictGet "https://ex.com/a"
        (discover_site fixtureFetch "ex" "https://ex.com/a" none 1 10 "T1").graph.nodes).map
      GraphNode.visit_count = some 1 ∧
    (dictGet "https://ex.com/a"
        (discover_site fixtureFetch "ex" "https://ex.com/a"
          (some (discover_site fixtureFetch "ex" "https://ex.com/a" none 1 10 "T1").graph)
          1 10 "T2").graph.nodes).map GraphNode.visit_count = some 1 ∧
    (dictGet "https://ex.com/a"
        (discover_site fixtureFetch "ex" "https://ex.com/a"
          (some (discover_site fixtureFetch "ex" "https://ex.com/a" none 1 10 "T1").graph)
          1 10 "T2").graph.nodes).map GraphNode.last_visited = some "T2" ∧
    ¬ (dictGet "https://ex.com/a"
        (discover_site fixtureFetch "ex" "https://ex.com/a"
          (some (discover_site fixtureFetch "ex" "https://ex.com/a" none 1 10 "T1").graph)
          1 10 "T2").graph.nodes).map GraphNode.visit_count = some 2 := by
  have hf1 : discover_site fixtureFetch "ex" "https://ex.com/a" none 1 10 "T1" =
      discoverLoopFuel fixtureFetch (get_base_url "https://ex.com/a") "T1" 1 10 600
        { graph := SiteGraph.init "ex" (get_base_url "https://ex.com/a") "T1", visited := [],
          queue := [("https://ex.com/a", 0, none)], pages_visited := 0, fetch_log := [] } :=
    (discoverLoopFuel_spec fixtureFetch (get_base_url "https://ex.com/a") "T1" 1 10
      { graph := SiteGraph.init "ex" (get_base_url "https://ex.com/a") "T1", visited := [],
        queue := [("https://ex.com/a", 0, none)], pages_visited := 0, fetch_log := [] }
      600 (by decide)).symm
  have hf2 : discover_site fixtureFetch "ex" "https://ex.com/a"
      (some (discover_site fixtureFetch "ex" "https://ex.com/a" none 1 10 "T1").graph)
      1 10 "T2" =
      discoverLoopFuel fixtureFetch (get_base_url "https://ex.com/a") "T2" 1 10 600
        { graph := (discoverLoopFuel fixtureFetch (get_base_url "https://ex.com/a") "T1" 1 10 600
            { graph := SiteGraph.init "ex" (get_base_url "https://ex.com/a") "T1", visited := [],
              queue := [("https://ex.com/a", 0, none)], pages_visited := 0,
              fetch_log := [] }).graph,
          visited := [], queue := [("https://ex.com/a", 0, none)], pages_visited := 0,
          fetch_log := [] } := by
    rw [hf1]
    exact (discoverLoopFuel_spec fixtureFetch (get_base_url "https://ex.com/a") "T2" 1 10
      { graph := (discoverLoopFuel fixtureFetch (get_base_url "https://ex.com/a") "T1" 1 10 600
          { graph := SiteGraph.init "ex" (get_base_url "https://ex.com/a") "T1", visited := [],
            queue := [("https://ex.com/a", 0, none)], pages_visited := 0,
            fetch_log := [] }).graph,
        visited := [], queue := [("https://ex.com/a", 0, none)], pages_visited := 0,
        fetch_log := [] }
      600 (by decide)).symm
  refine ⟨?_, ?_, ?_, ?_⟩
  · rw [hf1]
    decide
  · rw [hf2]
    decide
  · rw [hf2]
    decide
  · rw [hf2]
    decide

/-- C9 amended: revisiting a URL that already has a node replaces the
stored node with the freshly classified one — `visit_count` is reset to
`1` and `last_visited` set to the new run's timestamp — and no node is
ever deleted. -/
theorem C9_revisit_updates (fetch : String → Option PageData) (base_url now : String)
    (maxD : Nat) (s : DiscoverState) (u : String) (d : Nat) (p : Option String)
    (page : PageData)
    (h0 : dictContains (normalize_url u base_url) s.graph.nodes = true)
    (h1 : ¬ (normalize_url u base_url ∈ s.visited ∨ d > maxD))
    (h2 : is_same_domain (normalize_url u base_url) base_url = true)
    (h4 : fetch (normalize_url u base_url) = some page) :
    let t := discoverStep fetch base_url now maxD s u d p
    let c := normalize_url u base_url
    dictGet c t.graph.nodes = some (classify_page c page d p now) ∧
    (classify_page c page d p now).visit_count = 1 ∧
    (classify_page c page d p now).last_visited = now ∧
    (∀ url', dictContains url' s.graph.nodes = true →
      dictContains url' t.graph.nodes = true) := by
  intro t c
  have hnodes : t.graph.nodes =
      dictInsert c (classify_page c page d p now) s.graph.nodes := by
    show (discoverStep fetch base_url now maxD s u d p).graph.nodes = _
    simp only [discoverStep]
    rw [if_neg h1, if_neg (by simp [h2]), h4]
    dsimp only
    rw [links_foldl_nodes, register_ite_nodes, parent_match_nodes]
    rw [add_node_nodes, classify_page_url]
  refine ⟨?_, classify_page_visit_count _ _ _ _ _, classify_page_last_visited _ _ _ _ _, ?_⟩
  · rw [hnodes]
    exact dictGet_dictInsert_self _ _ _
  · intro url' hc
    rw [hnodes]
    exact dictContains_dictInsert_mono _ _ _ _ hc

/-- Witness for C9's amended theorem: revisiting `https://ex.com/a` over
a graph that already holds a node for it. -/
theorem C9_revisit_updates_witness :
    dictContains "https://ex.com/a" revisitState.graph.nodes = true ∧
    dictGet "https://ex.com/a"
        (discoverStep fixtureFetch "https://ex.com" "T2" 1 revisitState
          "https://ex.com/a" 0 none).graph.nodes =
      some (classify_page "https://ex.com/a" pageA 0 none "T2") := by
  refine ⟨by decide, ?_⟩
  exact (C9_revisit_updates fixtureFetch "https://ex.com" "T2" 1 revisitState
    "https://ex.com/a" 0 none pageA (by decide) (by decide) (by decide) (by decide)).1

/-! ## Claim C7 (corrected): domain scoping strips every "www." -/

/-- C7 counterexample: `http://www.www.example.com/` differs from
`http://example.com` when only a leading `"www."` is ignored, yet the
crawler treats it as in-domain and visits it (the page budget is
consumed). -/
theorem C7_counterexample :
    specStripLeadingWww (urlparseChars "http://www.www.example.com/".data []).netloc ≠
      specStripLeadingWww (urlparseChars "http://example.com".data []).netloc ∧
    is_same_domain "http://www.www.example.com/" "http://example.com" = true ∧
    (discoverStep (fun _ => none) "http://example.com" "T" 3
      { graph := SiteGraph.init "s" "http://example.com" "T", visited := [], queue := [],
        pages_visited := 0, fetch_log := [] }
      "http://www.www.example.com/" 0 none).pages_visited = 1 := by
  refine ⟨by decide, by decide, by decide⟩

/-- C7 amended: a dequeued, not-yet-visited URL within the depth budget
is skipped as out-of-domain exactly when the two netlocs differ after
removing every occurrence of the substring `"www."` (for netlocs free of
the IPv6-bracket parse error). -/
theorem C7_domain_scoping (fetch : String → Option PageData) (base_url now : String)
    (maxD : Nat) (s : DiscoverState) (u : String) (d : Nat) (p : Option String)
    (hv : normalize_url u base_url ∉ s.visited) (hd : ¬ d > maxD)
    (hbu : netlocBracketsBad (urlparseChars (normalize_url u base_url).data []).netloc = false)
    (hbb : netlocBracketsBad (urlparseChars base_url.data []).netloc = false) :
    discoverStep fetch base_url now maxD s u d p = s ↔
      removeAllOcc "www.".data (urlparseChars (normalize_url u base_url).data []).netloc ≠
        removeAllOcc "www.".data (urlparseChars base_url.data []).netloc := by
  have h1 : ¬ (normalize_url u base_url ∈ s.visited ∨ d > maxD) := by
    intro h
    rcases h with h | h
    · exact hv h
    · exact hd h
  have hsd : is_same_domain (normalize_url u base_url) base_url =
      (removeAllOcc "www.".data (urlparseChars (normalize_url u base_url).data []).netloc ==
       removeAllOcc "www.".data (urlparseChars base_url.data []).netloc) := by
    simp [is_same_domain, hbu, hbb]
  constructor
  · intro he heq
    have htrue : is_same_domain (normalize_url u base_url) base_url = true := by
      rw [hsd]
      exact beq_iff_eq.mpr heq
    have hpg : (discoverStep fetch base_url now maxD s u d p).pages_visited
        = s.pages_visited + 1 := by
      simp only [discoverStep]
      rw [if_neg h1, if_neg (by simp [htrue])]
      rcases hf : fetch (normalize_url u base_url) with _ | page <;> simp [hf]
    rw [he] at hpg
    omega
  · intro hne
    have hfalse : is_same_domain (normalize_url u base_url) base_url = false := by
      rw [hsd]
      exact beq_eq_false_iff_ne.mpr hne
    simp only [discoverStep]
    rw [if_neg h1, if_pos (by simp [hfalse])]

/-- Witness for C7's amended theorem: a true subdomain is skipped and
the loop state is untouched. -/
theorem C7_domain_scoping_witness :
    discoverStep (fun _ => none) "https://example.com" "T" 3
        (mkState (SiteGraph.init "s" "https://example.com" "T"))
        "https://sub.example.com/x" 0 none =
      mkState (SiteGraph.init "s" "https://example.com" "T") := by
  exact (C7_domain_scoping (fun _ => none) "https://example.com" "T" 3
    (mkState (SiteGraph.init "s" "https://example.com" "T"))
    "https://sub.example.com/x" 0 none (by decide) (by decide) (by decide) (by decide)).mpr
    (by decide)

/-! ## Claim C5: first-match-wins page classification -/

/-- C5: `_classify_page` decides the node type by first-match-wins:
document extension patterns give `DOCUMENT`; otherwise report/insight
path patterns give `LISTING` when more than 3 article-like blocks are
present, else `REPORT_PAGE`; otherwise a root-like path gives `HOME`;
everything else defaults to `SECTION` (no error).  The node built by
`classify_page` carries exactly this type. -/
theorem C5_classification_order (url : String) (articleCount : Nat)
    (page : PageData) (d : Nat) (p : Option String) (now : String) :
    classifyType url articleCount =
      (if DOCUMENT_PATTERNS.any (fun pt => pt (lowerStr url)) then NodeType.DOCUMENT
       else if REPORT_PATTERNS.any (fun pt => pt (lowerStr url)) then
         (if articleCount > 3 then NodeType.LISTING else NodeType.REPORT_PAGE)
       else if (urlparseChars url.data []).path ∈ rootLikePaths then NodeType.HOME
       else NodeType.SECTION) ∧
    (classify_page url page d p now).node_type = classifyType url page.articleCount := by
  constructor
  · unfold classifyType
    by_cases h1 : DOCUMENT_PATTERNS.any (fun pt => pt (lowerStr url))
    · simp [h1]
    · by_cases h2 : REPORT_PATTERNS.any (fun pt => pt (lowerStr url))
      · by_cases h3 : articleCount > 3 <;> simp [h1, h2, h3]
      · by_cases h4 : (urlparseChars url.data []).path ∈ rootLikePaths <;>
          simp [h1, h2, h4]
  · unfold classify_page GraphNode.postInit
    split <;> rfl

/-! ## Claim C2: canonicalization is idempotent

Helper lemmas about `takeWhile`/`filter`, the strip function, scheme
extraction and the branch structure of `urljoinChars`, leading to
idempotence of `normalize_url` over any `scheme://netloc` http(s) base
(the shape `_get_base_url` produces). -/

theorem strTakeWhile_eq_self {p : Char → Bool} {l : List Char}
    (h : ∀ c ∈ l, p c = true) : l.takeWhile p = l := by
  induction l with
  | nil => rfl
  | cons a t ih =>
    rw [List.takeWhile_cons, if_pos (h a (by simp))]
    rw [ih (fun c hc => h c (by simp [hc]))]

theorem strMem_takeWhile {p : Char → Bool} {l : List Char} {c : Char}
    (h : c ∈ l.takeWhile p) : c ∈ l ∧ p c = true := by
  induction l with
  | nil => cases h
  | cons a t ih =>
    rw [List.takeWhile_cons] at h
    by_cases hp : p a = true
    · rw [if_pos hp] at h
      rcases List.mem_cons.mp h with h' | h'
      · exact ⟨by simp [h'], h' ▸ hp⟩
      · obtain ⟨h1, h2⟩ := ih h'
        exact ⟨by simp [h1], h2⟩
    · rw [if_neg hp] at h
      cases h

theorem strTakeWhile_append {p : Char → Bool} {w t : List Char}
    (h : ∀ c ∈ w, p c = true) : (w ++ t).takeWhile p = w ++ t.takeWhile p := by
  induction w with
  | nil => rfl
  | cons a tl ih =>
    rw [List.cons_append, List.takeWhile_cons, if_pos (h a (by simp))]
    rw [ih (fun c hc => h c (by simp [hc]))]
    rfl

theorem strDropWhile_append {p : Char → Bool} {w t : List Char}
    (h : ∀ c ∈ w, p c = true) : (w ++ t).dropWhile p = t.dropWhile p := by
  induction w with
  | nil => rfl
  | cons a tl ih =>
    rw [List.cons_append, List.dropWhile_cons, if_pos (h a (by simp))]
    exact ih (fun c hc => h c (by simp [hc]))

theorem strFilter_takeWhile_comm {p f : Char → Bool} {l : List Char}
    (h : ∀ c, f c = false → p c = true) :
    (l.takeWhile p).filter f = (l.filter f).takeWhile p := by
  induction l with
  | nil => rfl
  | cons a t ih =>
    by_cases hf : f a = true
    · by_cases hp : p a = true
      · rw [List.takeWhile_cons, if_pos hp, List.filter_cons, if_pos hf,
            List.filter_cons, if_pos hf, List.takeWhile_cons, if_pos hp, ih]
      · rw [List.takeWhile_cons, if_neg hp, List.filter_cons, if_pos hf,
            List.takeWhile_cons, if_neg hp]
        rfl
    · have hp : p a = true := h a (by simpa using hf)
      rw [List.takeWhile_cons, if_pos hp, List.filter_cons,
          if_neg (by simpa using hf), List.filter_cons, if_neg (by simpa using hf), ih]

theorem stripChars_no_hash {l : List Char} : '#' ∉ stripChars l := by
  intro h
  obtain ⟨h1, _⟩ := strMem_takeWhile h
  obtain ⟨_, h2⟩ := strMem_takeWhile h1
  simp at h2

theorem stripChars_no_qm {l : List Char} : '?' ∉ stripChars l := by
  intro h
  obtain ⟨_, h2⟩ := strMem_takeWhile h
  simp at h2

theorem stripChars_eq_self {l : List Char} (h1 : '#' ∉ l) (h2 : '?' ∉ l) :
    stripChars l = l := by
  unfold stripChars
  rw [strTakeWhile_eq_self (p := fun c => c ≠ '#')]
  · exact strTakeWhile_eq_self (fun c hc => by
      simp only [decide_eq_true_eq]
      intro he
      exact h2 (he ▸ hc))
  · intro c hc
    simp only [decide_eq_true_eq]
    intro he
    exact h1 (he ▸ hc)

theorem stripChars_idem (l : List Char) : stripChars (stripChars l) = stripChars l :=
  stripChars_eq_self stripChars_no_hash stripChars_no_qm

theorem stripChars_append {w t : List Char} (h : ∀ c ∈ w, c ≠ '#' ∧ c ≠ '?') :
    stripChars (w ++ t) = w ++ stripChars t := by
  unfold stripChars
  rw [strTakeWhile_append (fun c hc => by
    simp only [decide_eq_true_eq]
    exact (h c hc).1)]
  rw [strTakeWhile_append (fun c hc => by
    simp only [decide_eq_true_eq]
    exact (h c hc).2)]

theorem string_mk_data (s : String) : (⟨s.data⟩ : String) = s := by
  cases s
  rfl

theorem schemeChar_ne {c : Char} (h : isSchemeChar c = true) :
    c ≠ '#' ∧ c ≠ '?' ∧ c ≠ ':' := by
  refine ⟨?_, ?_, ?_⟩ <;> intro he <;> subst he <;> exact absurd h (by decide)

theorem unsafe_ne {c : Char} (h : isUnsafeUrlChar c = true) :
    c ≠ '#' ∧ c ≠ '?' := by
  refine ⟨?_, ?_⟩ <;> intro he <;> subst he <;> exact absurd h (by decide)

theorem unsafe_isC0 {c : Char} (h : isUnsafeUrlChar c = true) :
    isC0OrSpace c = true := by
  have h3 : c = '\t' ∨ c = '\r' ∨ c = '\n' := by
    simpa [isUnsafeUrlChar, or_assoc] using h
  rcases h3 with h' | h' | h' <;> subst h' <;> decide

theorem c0_ne {c : Char} (h : isC0OrSpace c = true) : c ≠ '#' ∧ c ≠ '?' := by
  refine ⟨?_, ?_⟩ <;> intro he <;> subst he <;> exact absurd h (by decide)

theorem alpha_ne {c : Char} (h : c.isAlpha = true) : c ≠ '#' ∧ c ≠ '?' := by
  refine ⟨?_, ?_⟩ <;> intro he <;> subst he <;> exact absurd h (by decide)

theorem strDropWhile_head {p : Char → Bool} {l : List Char} {b : Char} {t : List Char}
    (h : l.dropWhile p = b :: t) : p b = false := by
  induction l with
  | nil => cases h
  | cons a tl ih =>
    rw [List.dropWhile_cons] at h
    by_cases hp : p a = true
    · rw [if_pos hp] at h
      exact ih h
    · rw [if_neg hp] at h
      cases h
      simpa using hp

theorem strDropWhile_eq_nil {p : Char → Bool} {l : List Char}
    (h : ∀ c ∈ l, p c = true) : l.dropWhile p = [] := by
  induction l with
  | nil => rfl
  | cons a tl ih =>
    rw [List.dropWhile_cons, if_pos (h a (by simp))]
    exact ih (fun c hc => h c (by simp [hc]))

theorem stripChars_filter_comm (l : List Char) :
    (stripChars l).filter (fun c => ! isUnsafeUrlChar c) =
      stripChars (l.filter (fun c => ! isUnsafeUrlChar c)) := by
  unfold stripChars
  rw [strFilter_takeWhile_comm (p := fun c => c ≠ '?')]
  · rw [strFilter_takeWhile_comm (p := fun c => c ≠ '#')]
    intro c hc
    have hc' : isUnsafeUrlChar c = true := by simpa using hc
    simpa using (unsafe_ne hc').1
  · intro c hc
    have hc' : isUnsafeUrlChar c = true := by simpa using hc
    simpa using (unsafe_ne hc').2

theorem extractSchemeGo_sound :
    ∀ (l acc : List Char) (s r : List Char), extractSchemeGo acc l = some (s, r) →
      ∃ mid, l = mid ++ ':' :: r ∧ s = acc.reverse ++ mid ∧
        ∀ c ∈ mid, isSchemeChar c = true := by
  intro l
  induction l with
  | nil => intro acc s r h; cases h
  | cons d rest ih =>
    intro acc s r h
    unfold extractSchemeGo at h
    by_cases hd : d = ':'
    · rw [if_pos hd] at h
      injection h with h'
      injection h' with h1 h2
      subst hd h1 h2
      exact ⟨[], rfl, by simp, by simp⟩
    · rw [if_neg hd] at h
      by_cases hs : isSchemeChar d = true
      · rw [if_pos hs] at h
        obtain ⟨mid, h1, h2, h3⟩ := ih (d :: acc) s r h
        refine ⟨d :: mid, by simp [h1], by simp [h2], ?_⟩
        intro c hc
        rcases List.mem_cons.mp hc with hc' | hc'
        · exact hc' ▸ hs
        · exact h3 c hc'
      · rw [if_neg hs] at h
        cases h

theorem extractScheme_sound {l s r : List Char} (h : extractScheme l = some (s, r)) :
    ∃ a mid, s = a :: mid ∧ a.isAlpha = true ∧ l = s ++ ':' :: r ∧
      ∀ c ∈ mid, isSchemeChar c = true := by
  cases l with
  | nil => cases h
  | cons c rest =>
    rw [show extractScheme (c :: rest) =
        (if c.isAlpha = true then extractSchemeGo [c] rest else none) from rfl] at h
    by_cases hc : c.isAlpha = true
    · rw [if_pos hc] at h
      obtain ⟨mid, h1, h2, h3⟩ := extractSchemeGo_sound rest [c] s r h
      exact ⟨c, mid, by simpa using h2, hc, by simp [h1, h2], h3⟩
    · rw [if_neg hc] at h
      cases h

theorem extractSchemeGo_compute :
    ∀ (as acc x : List Char), (∀ c ∈ as, isSchemeChar c = true) →
      extractSchemeGo acc (as ++ ':' :: x) = some (acc.reverse ++ as, x) := by
  intro as
  induction as with
  | nil =>
    intro acc x _
    simp [extractSchemeGo]
  | cons a tl ih =>
    intro acc x h
    have ha : isSchemeChar a = true := h a (by simp)
    have hne : ¬ a = ':' := (schemeChar_ne ha).2.2
    rw [List.cons_append]
    unfold extractSchemeGo
    rw [if_neg hne, if_pos ha, ih (a :: acc) x (fun c hc => h c (by simp [hc]))]
    simp

theorem extractScheme_compute {a : Char} {mid x : List Char} (ha : a.isAlpha = true)
    (hm : ∀ c ∈ mid, isSchemeChar c = true) :
    extractScheme ((a :: mid) ++ ':' :: x) = some (a :: mid, x) := by
  rw [List.cons_append]
  rw [show extractScheme (a :: (mid ++ ':' :: x)) =
      (if a.isAlpha = true then extractSchemeGo [a] (mid ++ ':' :: x) else none) from rfl]
  rw [if_pos ha, extractSchemeGo_compute mid [a] x hm]
  simp

theorem urlsplitChars_scheme (l ds : List Char) :
    (urlsplitChars l ds).scheme =
      (match extractScheme (preprocessUrl l) with
       | some sr => sr.1.map Char.toLower
       | none => preprocessScheme ds) := by
  unfold urlsplitChars
  rcases h : extractScheme (preprocessUrl l) with _ | sr <;> simp [h]

theorem urlparseChars_scheme (l ds : List Char) :
    (urlparseChars l ds).scheme = (urlsplitChars l ds).scheme := by
  unfold urlparseChars
  dsimp only
  split <;> rfl

theorem preprocessScheme_http {s : List Char}
    (hs : s = "http".data ∨ s = "https".data) : preprocessScheme s = s := by
  rcases hs with h | h <;> subst h <;> decide

theorem urlunsplit_prefix (scheme netloc path query fragment : List Char)
    (h : scheme ≠ []) :
    ∃ rest, urlunsplitChars scheme netloc path query fragment =
      scheme ++ ':' :: rest := by
  unfold urlunsplitChars
  dsimp only
  have key : ∀ (Y r0 : List Char), Y = scheme ++ ':' :: r0 →
      ∃ rest, (if ¬ fragment = [] then
          (if ¬ query = [] then Y ++ '?' :: query else Y) ++ '#' :: fragment
        else (if ¬ query = [] then Y ++ '?' :: query else Y)) =
        scheme ++ ':' :: rest := by
    intro Y r0 hY
    subst hY
    by_cases hq : ¬ query = []
    · by_cases hf : ¬ fragment = []
      · rw [if_pos hf, if_pos hq]
        exact ⟨r0 ++ '?' :: query ++ '#' :: fragment, by simp [List.append_assoc]⟩
      · rw [if_neg hf, if_pos hq]
        exact ⟨r0 ++ '?' :: query, by simp [List.append_assoc]⟩
    · by_cases hf : ¬ fragment = []
      · rw [if_pos hf, if_neg hq]
        exact ⟨r0 ++ '#' :: fragment, by simp [List.append_assoc]⟩
      · rw [if_neg hf, if_neg hq]
        exact ⟨r0, rfl⟩
  exact key _ _ (by rw [if_pos h])

theorem urlunparse_prefix (p : UrlParts) (h : p.scheme ≠ []) :
    ∃ rest, urlunparseChars p = p.scheme ++ ':' :: rest := by
  unfold urlunparseChars
  exact urlunsplit_prefix _ _ _ _ _ h

theorem urljoin_return_url {base url : List Char} (hb : ¬ base = []) (hu : ¬ url = [])
    (h : (urlparseChars url (urlparseChars base []).scheme).scheme ≠
           (urlparseChars base []).scheme ∨
         (urlparseChars url (urlparseChars base []).scheme).scheme ∉ uses_relative) :
    urljoinChars base url = url := by
  unfold urljoinChars
  rw [if_neg hb, if_neg hu]
  dsimp only
  rw [if_pos h]

theorem urljoin_scheme_prefix {base url : List Char} (hb : ¬ base = []) (hu : ¬ url = [])
    (heq : (urlparseChars url (urlparseChars base []).scheme).scheme =
             (urlparseChars base []).scheme)
    (hrel : (urlparseChars url (urlparseChars base []).scheme).scheme ∈ uses_relative)
    (hne : (urlparseChars url (urlparseChars base []).scheme).scheme ≠ []) :
    ∃ rest, urljoinChars base url =
      (urlparseChars url (urlparseChars base []).scheme).scheme ++ ':' :: rest := by
  unfold urljoinChars
  rw [if_neg hb, if_neg hu]
  dsimp only
  rw [if_neg (by
    intro hc
    rcases hc with hc | hc
    · exact hc heq
    · exact hc hrel)]
  split
  · exact urlunparse_prefix _ hne
  · split
    · exact urlunparse_prefix _ hne
    · exact urlunparse_prefix _ hne

theorem hostOk_facts {host : List Char} (h : hostOk host = true) :
    ∀ c ∈ host, 0x20 < c.toNat ∧ c ≠ '/' ∧ c ≠ '?' ∧ c ≠ '#' := by
  intro c hc
  have := (List.all_eq_true.mp h) c hc
  simp only [Bool.and_eq_true, decide_eq_true_eq] at this
  exact ⟨this.1.1.1, this.1.1.2, this.1.2, this.2⟩

/-- Parsing a `scheme://netloc` http(s) origin (as `_get_base_url`
produces) yields exactly that scheme and netloc with all other
components empty. -/
theorem parse_http_origin (s host : List Char)
    (hs : s = "http".data ∨ s = "https".data) (hok : hostOk host = true) :
    urlparseChars (s ++ ':' :: '/' :: '/' :: host) [] =
      { scheme := s, netloc := host, path := [], params := [],
        query := [], fragment := [] } := by
  have hfacts := hostOk_facts hok
  have hfilter : host.filter (fun c => ! isUnsafeUrlChar c) = host := by
    rw [List.filter_eq_self]
    intro c hc
    have h1 := (hfacts c hc).1
    simp only [Bool.not_eq_true']
    by_cases hu : isUnsafeUrlChar c = true
    · have := unsafe_isC0 hu
      simp [isC0OrSpace] at this
      omega
    · simpa using hu
  have htake : host.takeWhile notDelim = host := by
    apply strTakeWhile_eq_self
    intro c hc
    obtain ⟨_, h2, h3, h4⟩ := hfacts c hc
    simp [notDelim, h2, h3, h4]
  have hdrop : host.dropWhile notDelim = [] := by
    apply strDropWhile_eq_nil
    intro c hc
    obtain ⟨_, h2, h3, h4⟩ := hfacts c hc
    simp [notDelim, h2, h3, h4]
  rcases hs with hs | hs <;> subst hs <;>
    · unfold urlparseChars urlsplitChars preprocessUrl preprocessScheme
      simp only [List.cons_append, List.nil_append]
      simp [extractScheme, extractSchemeGo, isSchemeChar, isC0OrSpace,
            isUnsafeUrlChar, List.takeWhile, List.dropWhile, uses_params]
      simp only [isUnsafeUrlChar, Bool.not_or] at hfilter
      simp only [hfilter, hdrop, htake]
      simp [splitParamsChars]

theorem http_chars_ne {c : Char} (hc : c ∈ "http".data) : c ≠ '#' ∧ c ≠ '?' := by
  simp at hc
  rcases hc with rfl | rfl | rfl | rfl <;> exact ⟨by decide, by decide⟩

/-- C2: with a base URL of the `scheme://netloc` http(s) shape produced
by `_get_base_url`, `_normalize_url` is idempotent:
`canon(canon(u)) = canon(u)` for every URL string `u`. -/
theorem C2_canonicalization_idempotent (u base : String) (hb : isHttpBase base = true) :
    normalize_url (normalize_url u base) base = normalize_url u base := by
  -- decompose the base into scheme and netloc
  obtain ⟨s, host, hsd, hbase, hok⟩ :
      ∃ s host, (s = "http".data ∨ s = "https".data) ∧
        base.data = s ++ ':' :: '/' :: '/' :: host ∧ hostOk host = true := by
    unfold isHttpBase at hb
    simp only [Bool.or_eq_true, Bool.and_eq_true] at hb
    rcases hb with ⟨h1, h2⟩ | ⟨h1, h2⟩
    · obtain ⟨t, ht⟩ := List.isPrefixOf_iff_prefix.mp h1
      refine ⟨"http".data, t, Or.inl rfl, by rw [← ht]; rfl, ?_⟩
      have hdrop : base.data.drop 7 = t := by
        rw [← ht]
        rfl
      rwa [hdrop] at h2
    · obtain ⟨t, ht⟩ := List.isPrefixOf_iff_prefix.mp h1
      refine ⟨"https".data, t, Or.inr rfl, by rw [← ht]; rfl, ?_⟩
      have hdrop : base.data.drop 8 = t := by
        rw [← ht]
        rfl
      rwa [hdrop] at h2
  have hbne : ¬ base.data = [] := by
    rw [hbase]
    rcases hsd with h | h <;> subst h <;> simp
  have hbparse : urlparseChars base.data [] =
      { scheme := s, netloc := host, path := [], params := [], query := [],
        fragment := [] } := by
    rw [hbase]
    exact parse_http_origin s host hsd hok
  have hbsch : (urlparseChars base.data []).scheme = s := by rw [hbparse]
  have hsne : s ≠ [] := by rcases hsd with h | h <;> subst h <;> simp
  have hsrel : s ∈ uses_relative := by rcases hsd with h | h <;> subst h <;> decide
  have hs_ne : ∀ c ∈ s ++ [':'], c ≠ '#' ∧ c ≠ '?' := by
    intro c hc
    rcases List.mem_append.mp hc with hcs | hcc
    · rcases hsd with h | h <;> subst h
      · exact http_chars_ne hcs
      · simp at hcs
        rcases hcs with rfl | rfl | rfl | rfl | rfl <;> exact ⟨by decide, by decide⟩
    · simp at hcc
      subst hcc
      exact ⟨by decide, by decide⟩
  have hbase_clean : ∀ c ∈ base.data, c ≠ '#' ∧ c ≠ '?' := by
    intro c hc
    rw [hbase] at hc
    rcases List.mem_append.mp hc with hcs | hct
    · exact hs_ne c (List.mem_append.mpr (Or.inl hcs))
    · simp at hct
      rcases hct with rfl | rfl | hch
      · exact ⟨by decide, by decide⟩
      · exact ⟨by decide, by decide⟩
      · obtain ⟨_, _, h3, h4⟩ := hostOk_facts hok c hch
        exact ⟨h4, h3⟩
  have hbase_http : "http".data.isPrefixOf base.data = true := by
    apply List.isPrefixOf_iff_prefix.mpr
    rcases hsd with h | h <;> subst h <;> rw [hbase]
    · exact ⟨':' :: '/' :: '/' :: host, rfl⟩
    · exact ⟨'s' :: ':' :: '/' :: '/' :: host, rfl⟩
  -- the canonicalized URL always comes out of a strip
  have hCstrip : ∃ X, (normalize_url u base).data = stripChars X := by
    unfold normalize_url
    by_cases hcb : "http".data.isPrefixOf u.data = true
    · rw [if_pos hcb]
      exact ⟨u.data, rfl⟩
    · rw [if_neg hcb]
      exact ⟨urljoinChars base.data u.data, rfl⟩
  have hCstripself : stripChars (normalize_url u base).data =
      (normalize_url u base).data := by
    obtain ⟨X, hX⟩ := hCstrip
    rw [hX]
    exact stripChars_idem X
  by_cases hcp : "http".data.isPrefixOf (normalize_url u base).data = true
  · -- the canonical URL starts with "http": outer call just re-strips
    rw [normalize_url, if_pos hcp, hCstripself, string_mk_data]
  · -- the canonical URL came out of the scheme-mismatch branch of urljoin
    have hup : ¬ "http".data.isPrefixOf u.data = true := by
      intro hu
      apply hcp
      have hCu : (normalize_url u base).data = stripChars u.data := by
        unfold normalize_url
        rw [if_pos hu]
      obtain ⟨r, hr⟩ := List.isPrefixOf_iff_prefix.mp hu
      rw [hCu, ← hr, stripChars_append (fun c hc => http_chars_ne hc)]
      exact List.isPrefixOf_iff_prefix.mpr ⟨_, rfl⟩
    have hCB : (normalize_url u base).data =
        stripChars (urljoinChars base.data u.data) := by
      unfold normalize_url
      rw [if_neg hup]
    have hune : ¬ u.data = [] := by
      intro he
      apply hcp
      have hjb : urljoinChars base.data u.data = base.data := by
        unfold urljoinChars
        rw [if_neg hbne, if_pos he]
      rw [hCB, hjb, stripChars_eq_self (fun hc => (hbase_clean '#' hc).1 rfl)
        (fun hc => (hbase_clean '?' hc).2 rfl)]
      exact hbase_http
    -- u's parsed scheme differs from the base scheme
    have hmm : (urlparseChars u.data (urlparseChars base.data []).scheme).scheme ≠
        (urlparseChars base.data []).scheme := by
      intro heq
      obtain ⟨rest, hres⟩ := urljoin_scheme_prefix hbne hune heq
        (by rw [heq, hbsch]; exact hsrel) (by rw [heq, hbsch]; exact hsne)
      apply hcp
      rw [hCB, hres, heq, hbsch]
      rw [show s ++ ':' :: rest = (s ++ [':']) ++ rest from by simp]
      rw [stripChars_append hs_ne]
      apply List.isPrefixOf_iff_prefix.mpr
      rcases hsd with h | h <;> subst h
      · exact ⟨':' :: stripChars rest, by simp⟩
      · exact ⟨'s' :: ':' :: stripChars rest, by simp⟩
    have hjoin : urljoinChars base.data u.data = u.data :=
      urljoin_return_url hbne hune (Or.inl hmm)
    have hCq : (normalize_url u base).data = stripChars u.data := by
      rw [hCB, hjoin]
    rcases hext : extractScheme (preprocessUrl u.data) with _ | sr
    · exact absurd (by
        rw [urlparseChars_scheme, urlsplitChars_scheme, hext, hbsch,
            preprocessScheme_http hsd]) hmm
    · obtain ⟨sch, r⟩ := sr
      obtain ⟨a, mid, hsch, halpha, hsplit, hmidchars⟩ := extractScheme_sound hext
      have husch : (urlparseChars u.data (urlparseChars base.data []).scheme).scheme =
          sch.map Char.toLower := by
        rw [urlparseChars_scheme, urlsplitChars_scheme, hext]
      have hsplit' : (u.data.dropWhile isC0OrSpace).filter (fun c => ! isUnsafeUrlChar c) =
          a :: (mid ++ ':' :: r) := by
        have : preprocessUrl u.data = sch ++ ':' :: r := hsplit
        rw [hsch] at this
        simpa using this
      obtain ⟨b, t2, htcons⟩ : ∃ b t2, u.data.dropWhile isC0OrSpace = b :: t2 := by
        cases hcase : u.data.dropWhile isC0OrSpace with
        | nil =>
          rw [hcase] at hsplit'
          cases hsplit'
        | cons b t2 => exact ⟨b, t2, rfl⟩
      have hbC0 : isC0OrSpace b = false := strDropWhile_head htcons
      have hbf : (! isUnsafeUrlChar b) = true := by
        by_cases hbu : isUnsafeUrlChar b = true
        · have := unsafe_isC0 hbu
          rw [hbC0] at this
          cases this
        · simpa using hbu
      have hfilter_t : (u.data.dropWhile isC0OrSpace).filter (fun c => ! isUnsafeUrlChar c) =
          b :: t2.filter (fun c => ! isUnsafeUrlChar c) := by
        rw [htcons, List.filter_cons, if_pos hbf]
      have hba : b = a ∧ t2.filter (fun c => ! isUnsafeUrlChar c) = mid ++ ':' :: r := by
        rw [hfilter_t] at hsplit'
        simpa using hsplit'
      obtain ⟨hba1, ht2f⟩ := hba
      have halphab : b.isAlpha = true := hba1 ▸ halpha
      have hbne' : b ≠ '#' ∧ b ≠ '?' := alpha_ne halphab
      have hwfacts : ∀ c ∈ u.data.takeWhile isC0OrSpace, c ≠ '#' ∧ c ≠ '?' :=
        fun c hc => c0_ne (strMem_takeWhile hc).2
      have hstripcons : stripChars (b :: t2) = b :: stripChars t2 := by
        unfold stripChars
        rw [List.takeWhile_cons, if_pos (by simp [hbne'.1]),
            List.takeWhile_cons, if_pos (by simp [hbne'.2])]
      have hCdecomp : (normalize_url u base).data =
          u.data.takeWhile isC0OrSpace ++ b :: stripChars t2 := by
        rw [hCq]
        conv_lhs => rw [← List.takeWhile_append_dropWhile (p := isC0OrSpace) (l := u.data)]
        rw [stripChars_append hwfacts, htcons, hstripcons]
      have hmidcolon : ∀ c ∈ mid ++ [':'], c ≠ '#' ∧ c ≠ '?' := by
        intro c hc
        rcases List.mem_append.mp hc with hcm | hcc
        · obtain ⟨h1, h2, _⟩ := schemeChar_ne (hmidchars c hcm)
          exact ⟨h1, h2⟩
        · simp at hcc
          subst hcc
          exact ⟨by decide, by decide⟩
      have hstripmid : stripChars (mid ++ ':' :: r) = mid ++ ':' :: stripChars r := by
        rw [show mid ++ ':' :: r = (mid ++ [':']) ++ r from by simp]
        rw [stripChars_append hmidcolon]
        simp
      have hCpre : preprocessUrl (normalize_url u base).data =
          (b :: mid) ++ ':' :: stripChars r := by
        unfold preprocessUrl
        rw [hCdecomp]
        rw [strDropWhile_append (fun c hc => (strMem_takeWhile hc).2)]
        rw [List.dropWhile_cons, if_neg (by simp [hbC0])]
        rw [List.filter_cons, if_pos hbf]
        rw [stripChars_filter_comm t2, ht2f, hstripmid]
        rfl
      have hCsch : (urlparseChars (normalize_url u base).data
          (urlparseChars base.data []).scheme).scheme = sch.map Char.toLower := by
        rw [urlparseChars_scheme, urlsplitChars_scheme, hCpre,
            extractScheme_compute halphab (fun c hc => hmidchars c hc)]
        rw [hsch, hba1]
      have hCne : ¬ (normalize_url u base).data = [] := by
        rw [hCdecomp]
        simp
      have hmm2 : (urlparseChars (normalize_url u base).data
          (urlparseChars base.data []).scheme).scheme ≠
          (urlparseChars base.data []).scheme := by
        rw [hCsch, ← husch]
        exact hmm
      have hjoin2 : urljoinChars base.data (normalize_url u base).data =
          (normalize_url u base).data :=
        urljoin_return_url hbne hCne (Or.inl hmm2)
      rw [normalize_url, if_neg hcp, hjoin2, hCstripself, string_mk_data]

/-- Witness for C2 at a concrete base and URL. -/
theorem C2_canonicalization_idempotent_witness :
    isHttpBase "https://example.com" = true ∧
    normalize_url (normalize_url "a/b?q=1#frag" "https://example.com")
        "https://example.com" =
      normalize_url "a/b?q=1#frag" "https://example.com" := by
  exact ⟨by decide,
    C2_canonicalization_idempotent "a/b?q=1#frag" "https://example.com" (by decide)⟩

/-! ## Persistence lemmas and claims C4, C8 -/

theorem NodeType.fromValue_value (nt : NodeType) :
    NodeType.fromValue nt.value = some nt := by
  cases nt <;> rfl

theorem from_dict_to_dict (n : GraphNode) (now : String) (h : n.discovered_at ≠ "") :
    GraphNode.from_dict n.to_dict now = .ok n := by
  cases n with
  | mk url nt title topics depth p disc last vc ia du md =>
    simp only at h
    simp [GraphNode.from_dict, GraphNode.to_dict, NodeType.fromValue_value,
          GraphNode.postInit, h]

theorem from_doc_to_doc (e : GraphEdge) : GraphEdge.from_doc e.to_doc = .ok e := by
  cases e
  rfl

theorem dictContains_append {α : Type} (k : String) (a b : List (String × α)) :
    dictContains k (a ++ b) = (dictContains k a || dictContains k b) := by
  induction a with
  | nil => simp [dictContains, dictGet]
  | cons hd tl ih =>
    obtain ⟨k', v'⟩ := hd
    by_cases hk : k' = k <;> simp [dictContains, dictGet, hk] <;>
      simpa [dictContains] using ih

theorem dictInsert_of_not_contains {α : Type} (k : String) (v : α)
    (d : List (String × α)) (h : dictContains k d = false) :
    dictInsert k v d = d ++ [(k, v)] := by
  induction d with
  | nil => rfl
  | cons hd tl ih =>
    obtain ⟨k', v'⟩ := hd
    by_cases hk : k' = k
    · simp [dictContains, dictGet, hk] at h
    · simp [dictContains, dictGet, hk] at h
      simp [dictInsert, hk, ih (by simp [dictContains, h])]

theorem foldl_dictInsert_eq {α : Type} (l : List (String × α)) :
    ∀ acc, (l.map Prod.fst).Nodup →
      (∀ kv ∈ l, dictContains kv.1 acc = false) →
      l.foldl (fun a kv => dictInsert kv.1 kv.2 a) acc = acc ++ l := by
  induction l with
  | nil => intro acc _ _; simp
  | cons hd tl ih =>
    intro acc hnd hdisj
    obtain ⟨k, v⟩ := hd
    have h1 : dictContains k acc = false := hdisj (k, v) (by simp)
    obtain ⟨hk, h2⟩ := List.nodup_cons.mp (by simpa using hnd :
      (k :: tl.map Prod.fst).Nodup)
    have h3 : ∀ kv ∈ tl, dictContains kv.1 (acc ++ [(k, v)]) = false := by
      intro kv hkv
      rw [dictContains_append]
      have ha : dictContains kv.1 acc = false := hdisj kv (by simp [hkv])
      have hb : dictContains kv.1 [(k, v)] = false := by
        have hne : kv.1 ≠ k := by
          intro he
          exact hk (he ▸ List.mem_map_of_mem Prod.fst hkv)
        simp [dictContains, dictGet, Ne.symm hne]
      simp [ha, hb]
    calc ((k, v) :: tl).foldl (fun a kv => dictInsert kv.1 kv.2 a) acc
        = tl.foldl (fun a kv => dictInsert kv.1 kv.2 a) (dictInsert k v acc) := by simp
      _ = tl.foldl (fun a kv => dictInsert kv.1 kv.2 a) (acc ++ [(k, v)]) := by
          rw [dictInsert_of_not_contains k v acc h1]
      _ = (acc ++ [(k, v)]) ++ tl := ih (acc ++ [(k, v)]) h2 h3
      _ = acc ++ (k, v) :: tl := by simp

theorem setUpdate_acc_of_nodup : ∀ (l acc : List String), l.Nodup →
    (∀ x ∈ l, x ∉ acc) → setUpdate acc l = acc ++ l := by
  intro l
  induction l with
  | nil => intro acc _ _; simp [setUpdate]
  | cons hd tl ih =>
    intro acc hnd hdisj
    obtain ⟨hh, ht⟩ := List.nodup_cons.mp hnd
    have h1 : hd ∉ acc := hdisj hd (by simp)
    have h2 : setInsert acc hd = acc ++ [hd] := by simp [setInsert, h1]
    have h3 : ∀ x ∈ tl, x ∉ acc ++ [hd] := by
      intro x hx
      simp only [List.mem_append, List.mem_singleton]
      rintro (hxa | hxh)
      · exact hdisj x (by simp [hx]) hxa
      · exact hh (hxh ▸ hx)
    have hrec := ih (acc ++ [hd]) ht h3
    show (hd :: tl).foldl setInsert acc = acc ++ hd :: tl
    rw [List.foldl_cons, h2]
    rw [show tl.foldl setInsert (acc ++ [hd]) = setUpdate (acc ++ [hd]) tl from rfl]
    rw [hrec]
    simp

theorem loadNodesGo_map (now : String) (l : List (String × GraphNode)) :
    ∀ acc, (∀ kv ∈ l, kv.2.discovered_at ≠ "") →
      loadNodesGo now acc (l.map (fun kv => (kv.1, kv.2.to_dict))) =
        .ok (l.foldl (fun a kv => dictInsert kv.1 kv.2 a) acc) := by
  induction l with
  | nil => intro acc _; rfl
  | cons hd tl ih =>
    intro acc h
    obtain ⟨k, n⟩ := hd
    have hh : n.discovered_at ≠ "" := h (k, n) (by simp)
    simp only [List.map_cons, loadNodesGo, from_dict_to_dict n now hh]
    rw [ih (dictInsert k n acc) (fun kv hkv => h kv (by simp [hkv]))]
    simp

theorem loadEdgesGo_map (l : List GraphEdge) :
    ∀ accE accA, loadEdgesGo accE accA (l.map GraphEdge.to_doc) =
      .ok (accE ++ l,
        l.foldl (fun a e =>
          dictModify e.from_url (fun s => setInsert s e.to_url)
            (if dictContains e.from_url a then a else dictInsert e.from_url [] a)) accA) := by
  induction l with
  | nil => intro accE accA; simp [loadEdgesGo]
  | cons hd tl ih =>
    intro accE accA
    simp only [List.map_cons, loadEdgesGo, from_doc_to_doc hd]
    rw [ih (accE ++ [hd]) _]
    simp

/-- C4: `save()` followed by `load()` reproduces an identical node dict
(every field of every node), the identical ordered edge list, identical
`known_routes`, identical `site_topics`, and the original
`created_at`/`last_updated` timestamps — for every graph satisfying the
constructor-maintained invariants (nonempty `discovered_at` stamps,
unique node keys, duplicate-free topic set). -/
theorem C4_save_load_roundtrip (g : SiteGraph) (now : String)
    (hdisc : ∀ kv ∈ g.nodes, kv.2.discovered_at ≠ "")
    (hkeys : (g.nodes.map Prod.fst).Nodup)
    (htop : g.site_topics.Nodup) :
    (SiteGraph.load g.save now).map
        (fun h => (h.nodes, h.edges, h.known_routes, h.site_topics,
                   h.created_at, h.last_updated)) =
      Except.ok (g.nodes, g.edges, g.known_routes, g.site_topics,
                 g.created_at, g.last_updated) := by
  unfold SiteGraph.save SiteGraph.load
  simp only
  rw [loadNodesGo_map now g.nodes [] hdisc]
  rw [foldl_dictInsert_eq g.nodes [] hkeys (fun kv _ => rfl)]
  rw [loadEdgesGo_map g.edges [] []]
  have hst : setUpdate [] g.site_topics = g.site_topics := by
    simpa using setUpdate_acc_of_nodup g.site_topics [] htop (by simp)
  simp [hst, Except.map]

/-- Witness for C4 on a concrete graph with a node, an edge, topics and
both timestamps. -/
theorem C4_save_load_roundtrip_witness :
    (∀ kv ∈ roundtripGraph.nodes, kv.2.discovered_at ≠ "") ∧
    (roundtripGraph.nodes.map Prod.fst).Nodup ∧
    roundtripGraph.site_topics.Nodup ∧
    (SiteGraph.load roundtripGraph.save "T9").map
        (fun h => (h.nodes, h.edges, h.known_routes, h.site_topics,
                   h.created_at, h.last_updated)) =
      Except.ok (roundtripGraph.nodes, roundtripGraph.edges, roundtripGraph.known_routes,
                 roundtripGraph.site_topics, roundtripGraph.created_at,
                 roundtripGraph.last_updated) := by
  exact ⟨by decide, by decide, by decide,
    C4_save_load_roundtrip roundtripGraph "T9" (by decide) (by decide) (by decide)⟩

/-- C8: a persistence failure or malformed document while loading one
site fails that site's load outright — `SiteGraph.load` yields an error
rather than a substitute graph — and leaves the registry loading of the
other sites' files untouched. -/
theorem C8_load_failure_isolated (files1 files2 : List (Except String GraphDoc))
    (bad : Except String GraphDoc) (now : String)
    (h : ∀ g, (bad >>= fun doc => SiteGraph.load doc now) ≠ .ok g) :
    load_all_graphs (files1 ++ bad :: files2) now =
      load_all_graphs (files1 ++ files2) now ∧
    (∀ doc : GraphDoc, doc.site_name = none →
      SiteGraph.load doc now = .error "KeyError: site_name") := by
  constructor
  · have hbadstep : ∀ acc : List (String × SiteGraph),
        (match bad >>= (fun doc => SiteGraph.load doc now) with
         | .error _ => acc
         | .ok g => dictInsert (lowerStr g.site_name) g acc) = acc := by
      intro acc
      rcases hb : bad >>= (fun doc => SiteGraph.load doc now) with e | g
      · rfl
      · exact absurd hb (h g)
    unfold load_all_graphs
    rw [List.foldl_append, List.foldl_append, List.foldl_cons, hbadstep]
  · intro doc hd
    unfold SiteGraph.load
    rw [hd]

/-- Witness for C8: a well-formed file plus an empty (malformed)
document load to the same registry as the well-formed file alone. -/
theorem C8_load_failure_isolated_witness :
    load_all_graphs [Except.ok roundtripGraph.save, Except.ok badDoc] "T" =
      load_all_graphs [Except.ok roundtripGraph.save] "T" := by
  have hbad : ∀ g, ((Except.ok badDoc : Except String GraphDoc) >>=
      fun doc => SiteGraph.load doc "T") ≠ .ok g := by
    intro g hg
    have h2 : SiteGraph.load badDoc "T" = .ok g := by simpa using hg
    rw [show SiteGraph.load badDoc "T" = .error "KeyError: site_name" from rfl] at h2
    cases h2
  have := (C8_load_failure_isolated [Except.ok roundtripGraph.save] []
    (Except.ok badDoc) "T" hbad).1
  simpa using this

/-! ## Claim C6: `add_node` is an upsert -/

/-- C6: `add_node` is an upsert keyed by canonical URL: adding a node
whose URL is already present leaves `len(nodes)` unchanged, stores the
new node under that URL, unions its topics into `site_topics`, and
adding the same node twice is idempotent. -/
theorem C6_add_node_upsert (g : SiteGraph) (n : GraphNode) (now : String)
    (h : dictContains n.url g.nodes = true) :
    ((g.add_node n now).nodes.length = g.nodes.length) ∧
    ((g.add_node n now).get_node n.url = some n) ∧
    (∀ t ∈ n.topics, t ∈ (g.add_node n now).site_topics) ∧
    ((g.add_node n now).add_node n now = g.add_node n now) := by
  refine ⟨?_, ?_, ?_, ?_⟩
  · simpa [SiteGraph.add_node] using dictInsert_length_of_contains n.url n g.nodes h
  · simp [SiteGraph.add_node, SiteGraph.get_node, dictGet_dictInsert_self]
  · intro t ht
    simpa [SiteGraph.add_node] using mem_setUpdate_of_mem_right g.site_topics ht
  · have hadj : dictContains n.url
        (if dictContains n.url g.adjacency then g.adjacency
         else dictInsert n.url [] g.adjacency) = true := by
      by_cases hc : dictContains n.url g.adjacency
      · simpa [hc]
      · simp [hc, dictContains_dictInsert_self]
    simp [SiteGraph.add_node, dictInsert_idem, setUpdate_idem, hadj]

/-- Witness for C6 at a concrete graph that already holds the node. -/
theorem C6_add_node_upsert_witness :
    let n : GraphNode := { url := "https://example.com/a", topics := ["AI"] }
    let g := (SiteGraph.init "s" "https://example.com" "t0").add_node n "t1"
    (dictContains n.url g.nodes = true) ∧
    ((g.add_node n "t2").nodes.length = g.nodes.length) := by
  intro n g
  have h : dictContains n.url g.nodes = true := by decide
  exact ⟨h, (C6_add_node_upsert g n "t2" h).1⟩

/-! ## BFS verification layer for `find_path` (claim C1) -/

/-! ## bfsScan characterizations -/

theorem bfsScan_none_spec (t : String) (path : List String) :
    ∀ (ns : List String) (q : List (String × List String)) (vis : List String)
      (q' : List (String × List String)) (vis' : List String),
    bfsScan t path ns q vis = (none, q', vis') →
    (∀ n ∈ ns, n ≠ t ∧ n ∈ vis') ∧
    (∃ new, q' = q ++ new ∧
      (∀ e ∈ new, e.2 = path ++ [e.1] ∧ e.1 ∈ ns ∧ e.1 ∉ vis ∧ e.1 ∈ vis') ∧
      (∀ n ∈ ns, n ∉ vis → ∃ p', (n, p') ∈ new)) ∧
    vis ⊆ vis' ∧ (∀ w ∈ vis', w ∈ vis ∨ w ∈ ns) ∧
    (vis.Nodup → vis'.Nodup) ∧
    q'.length + vis.length = q.length + vis'.length := by
  intro ns
  induction ns with
  | nil =>
    intro q vis q' vis' h
    simp only [bfsScan] at h
    injection h with h1 h23
    injection h23 with h2 h3
    subst h2
    subst h3
    refine ⟨by simp, ⟨[], by simp, by simp, by simp⟩, fun w hw => hw,
      fun w hw => Or.inl hw, fun h => h, by simp⟩
  | cons n ns ih =>
    intro q vis q' vis' h
    simp only [bfsScan] at h
    by_cases hnt : n = t
    · rw [if_pos hnt] at h
      cases h
    · rw [if_neg hnt] at h
      by_cases hnv : n ∈ vis
      · rw [if_pos hnv] at h
        obtain ⟨hA, ⟨new, hB1, hB2, hB3⟩, hC, hD, hE, hF⟩ := ih q vis q' vis' h
        refine ⟨?_, ⟨new, hB1, ?_, ?_⟩, hC, ?_, hE, hF⟩
        · intro m hm
          rcases List.mem_cons.mp hm with rfl | hm'
          · exact ⟨hnt, hC hnv⟩
          · exact hA m hm'
        · intro e he
          obtain ⟨h1, h2, h3, h4⟩ := hB2 e he
          exact ⟨h1, List.mem_cons_of_mem _ h2, h3, h4⟩
        · intro m hm hmv
          rcases List.mem_cons.mp hm with rfl | hm'
          · exact absurd hnv hmv
          · exact hB3 m hm' hmv
        · intro w hw
          rcases hD w hw with h1 | h1
          · exact Or.inl h1
          · exact Or.inr (List.mem_cons_of_mem _ h1)
      · rw [if_neg hnv] at h
        have hset : setInsert vis n = vis ++ [n] := by simp [setInsert, hnv]
        rw [hset] at h
        obtain ⟨hA, ⟨new, hB1, hB2, hB3⟩, hC, hD, hE, hF⟩ :=
          ih (q ++ [(n, path ++ [n])]) (vis ++ [n]) q' vis' h
        have hnvis' : n ∈ vis' := hC (by simp)
        refine ⟨?_, ⟨(n, path ++ [n]) :: new, by rw [hB1]; simp, ?_, ?_⟩,
          fun w hw => hC (by simp [hw]), ?_, ?_, ?_⟩
        · intro m hm
          rcases List.mem_cons.mp hm with rfl | hm'
          · exact ⟨hnt, hnvis'⟩
          · exact hA m hm'
        · intro e he
          rcases List.mem_cons.mp he with rfl | he'
          · exact ⟨rfl, by simp, hnv, hnvis'⟩
          · obtain ⟨h1, h2, h3, h4⟩ := hB2 e he'
            exact ⟨h1, List.mem_cons_of_mem _ h2,
              fun hmem => h3 (by simp [hmem]), h4⟩
        · intro m hm hmv
          rcases List.mem_cons.mp hm with rfl | hm'
          · exact ⟨path ++ [m], by simp⟩
          · by_cases hmn : m = n
            · subst hmn
              exact ⟨path ++ [m], by simp⟩
            · obtain ⟨p', hp'⟩ := hB3 m hm' (by simp [hmv, hmn])
              exact ⟨p', List.mem_cons_of_mem _ hp'⟩
        · intro w hw
          rcases hD w hw with h1 | h1
          · rcases List.mem_append.mp h1 with h2 | h2
            · exact Or.inl h2
            · simp at h2
              exact Or.inr (by simp [h2])
          · exact Or.inr (List.mem_cons_of_mem _ h1)
        · intro hnd
          exact hE (by simp [List.nodup_append, hnd, hnv])
        · simp at hF
          omega

theorem bfsScan_some_spec (t : String) (path : List String) :
    ∀ (ns : List String) (q : List (String × List String)) (vis : List String)
      (q1 : List (String × List String)) (v1 : List String) (p : List String),
    bfsScan t path ns q vis = (some p, q1, v1) →
    p = path ++ [t] ∧ t ∈ ns := by
  intro ns
  induction ns with
  | nil =>
    intro q vis q1 v1 p h
    simp only [bfsScan] at h
    cases h
  | cons n ns ih =>
    intro q vis q1 v1 p h
    simp only [bfsScan] at h
    by_cases hnt : n = t
    · rw [if_pos hnt] at h
      subst hnt
      injection h with h1 _
      injection h1 with h1
      exact ⟨h1.symm, by simp⟩
    · rw [if_neg hnt] at h
      by_cases hnv : n ∈ vis
      · rw [if_pos hnv] at h
        obtain ⟨h1, h2⟩ := ih _ _ _ _ _ h
        exact ⟨h1, List.mem_cons_of_mem _ h2⟩
      · rw [if_neg hnv] at h
        obtain ⟨h1, h2⟩ := ih _ _ _ _ _ h
        exact ⟨h1, List.mem_cons_of_mem _ h2⟩

/-! ## pathOk lemmas -/

theorem pathOk_ne_nil {adj : List (String × List String)} {r : List String}
    (h : pathOk adj r = true) : r ≠ [] := by
  intro he
  subst he
  simp [pathOk] at h

theorem pathOk_single (adj : List (String × List String)) (x : String) :
    pathOk adj [x] = true := rfl

theorem head?_append_left {α : Type} {l : List α} (l' : List α) (h : l ≠ []) :
    (l ++ l').head? = l.head? := by
  cases l with
  | nil => exact absurd rfl h
  | cons x xs => rfl

theorem pathOk_append_last {adj : List (String × List String)} :
    ∀ {r : List String} {x y : String}, pathOk adj r = true →
    r.getLast? = some x → y ∈ (dictGet x adj).getD [] →
    pathOk adj (r ++ [y]) = true ∧ (r ++ [y]).getLast? = some y := by
  intro r
  induction r with
  | nil => intro x y h; exact absurd h (by simp [pathOk])
  | cons w rest ih =>
    intro x y h hl hy
    cases rest with
    | nil =>
      simp at hl
      subst hl
      refine ⟨?_, by simp⟩
      simp [pathOk, hy]
    | cons w2 rest2 =>
      have hsplit : decide (w2 ∈ (dictGet w adj).getD []) = true ∧
          pathOk adj (w2 :: rest2) = true := by
        simpa [pathOk, Bool.and_eq_true] using h
      rw [List.getLast?_cons_cons] at hl
      obtain ⟨hp1, hp2⟩ := ih hsplit.2 hl hy
      constructor
      · have hform : (w :: w2 :: rest2) ++ [y] = w :: w2 :: (rest2 ++ [y]) := by
          simp
        rw [hform]
        simp only [pathOk, Bool.and_eq_true]
        refine ⟨hsplit.1, ?_⟩
        have hform2 : w2 :: (rest2 ++ [y]) = (w2 :: rest2) ++ [y] := by simp
        rw [hform2]
        exact hp1
      · exact List.getLast?_concat _

theorem pathOk_drop_last {adj : List (String × List String)} :
    ∀ {r : List String} {z : String}, pathOk adj r = true →
    r.getLast? = some z → 2 ≤ r.length →
    ∃ r0 v, r = r0 ++ [z] ∧ pathOk adj r0 = true ∧ r0.getLast? = some v ∧
      z ∈ (dictGet v adj).getD [] ∧ r0.head? = r.head? := by
  intro r
  induction r with
  | nil => intro z h; exact absurd h (by simp [pathOk])
  | cons x rest ih =>
    intro z h hl hlen
    cases rest with
    | nil => simp at hlen
    | cons y rest2 =>
      have hsplit : decide (y ∈ (dictGet x adj).getD []) = true ∧
          pathOk adj (y :: rest2) = true := by
        simpa [pathOk, Bool.and_eq_true] using h
      cases rest2 with
      | nil =>
        simp at hl
        subst hl
        exact ⟨[x], x, by simp, rfl, by simp, by simpa using hsplit.1, rfl⟩
      | cons w rest3 =>
        rw [List.getLast?_cons_cons] at hl
        obtain ⟨r0, v, h1, h2, h3, h4, h5⟩ := ih hsplit.2 hl (by simp)
        have hr0ne : r0 ≠ [] := by
          intro he
          rw [he] at h5
          simp at h5
        obtain ⟨r0h, r0t, hr0⟩ : ∃ c cs, r0 = c :: cs := by
          cases r0 with
          | nil => exact absurd rfl hr0ne
          | cons c cs => exact ⟨c, cs, rfl⟩
        have hr0hy : r0h = y := by
          rw [hr0] at h5
          simpa using h5
        refine ⟨x :: r0, v, by rw [List.cons_append, ← h1], ?_, ?_, h4, rfl⟩
        · rw [hr0, hr0hy]
          simp only [pathOk, Bool.and_eq_true]
          refine ⟨hsplit.1, ?_⟩
          rw [← hr0hy, ← hr0]
          exact h2
        · rw [hr0, List.getLast?_cons_cons, ← hr0]
          exact h3

theorem path_closed {adj : List (String × List String)} {S : List String}
    {t : String}
    (hcl : ∀ x ∈ S, ∀ y ∈ (dictGet x adj).getD [], y ∈ S ∧ y ≠ t) :
    ∀ r, pathOk adj r = true → ∀ w, r.head? = some w → w ∈ S → w ≠ t →
      ∀ z, r.getLast? = some z → z ∈ S ∧ z ≠ t := by
  intro r
  induction r with
  | nil => intro h; exact absurd h (by simp [pathOk])
  | cons x rest ih =>
    intro h w hw hwS hwt z hz
    have hxw : x = w := by simpa using hw
    subst hxw
    cases rest with
    | nil =>
      simp at hz
      subst hz
      exact ⟨hwS, hwt⟩
    | cons y rest2 =>
      have hsplit : decide (y ∈ (dictGet x adj).getD []) = true ∧
          pathOk adj (y :: rest2) = true := by
        simpa [pathOk, Bool.and_eq_true] using h
      have hy := hcl x hwS y (by simpa using hsplit.1)
      rw [List.getLast?_cons_cons] at hz
      exact ih hsplit.2 y rfl hy.1 hy.2 z hz

/-! ## Invariant preservation -/

theorem bfsStep_inv {adj : List (String × List String)} {a t current : String}
    {path : List String} {rest : List (String × List String)}
    {visited : List String} {q' : List (String × List String)}
    {vis' : List String}
    (hat : a ≠ t)
    (hinv : BfsInv adj a t ((current, path) :: rest) visited)
    (hscan : bfsScan t path ((dictGet current adj).getD []) rest visited =
      (none, q', vis')) :
    BfsInv adj a t q' vis' := by
  obtain ⟨hA, ⟨new, hq'eq, hnew, hfresh⟩, hmono, hsub, hnd, hcnt⟩ :=
    bfsScan_none_spec t path _ rest visited q' vis' hscan
  obtain ⟨hq0p, hq0h, hq0l⟩ := hinv.hq (current, path) (by simp)
  have hLpos : 1 ≤ path.length := by
    have hne := pathOk_ne_nil hq0p
    cases path with
    | nil => exact absurd rfl hne
    | cons _ _ => simp
  have hrest_lb : ∀ e ∈ rest, path.length ≤ e.2.length :=
    fun e he => (List.pairwise_cons.mp hinv.hsort).1 e he
  have hrest_ub : ∀ e ∈ rest, e.2.length ≤ path.length + 1 := by
    intro e he
    exact hinv.hwin e (by simp [he]) (current, path) (by simp)
  have hnew_len : ∀ e ∈ new, e.2.length = path.length + 1 := by
    intro e he
    rw [(hnew e he).1]
    simp
  have hnew_q : ∀ e ∈ new, pathOk adj e.2 = true ∧ e.2.head? = some a ∧
      e.2.getLast? = some e.1 := by
    intro e he
    obtain ⟨h1, h2, _, _⟩ := hnew e he
    obtain ⟨hpk, hlast⟩ := pathOk_append_last hq0p hq0l h2
    rw [h1]
    refine ⟨hpk, ?_, hlast⟩
    rw [head?_append_left _ (pathOk_ne_nil hq0p)]
    exact hq0h
  have hq'mem : ∀ e ∈ q', e ∈ rest ∨ e ∈ new := by
    intro e he
    rw [hq'eq] at he
    exact List.mem_append.mp he
  have hqF : ∀ e ∈ q', pathOk adj e.2 = true ∧ e.2.head? = some a ∧
      e.2.getLast? = some e.1 := by
    intro e he
    rcases hq'mem e he with h | h
    · exact hinv.hq e (by simp [h])
    · exact hnew_q e h
  have hqvF : ∀ e ∈ q', e.1 ∈ vis' := by
    intro e he
    rcases hq'mem e he with h | h
    · exact hmono (hinv.hqv e (by simp [h]))
    · exact (hnew e h).2.2.2
  have hqtF : ∀ e ∈ q', e.1 ≠ t := by
    intro e he
    rcases hq'mem e he with h | h
    · exact hinv.hqt e (by simp [h])
    · exact (hA e.1 (hnew e h).2.1).1
  have htvF : t ∉ vis' := by
    intro ht
    rcases hsub t ht with h | h
    · exact hinv.htv h
    · exact (hA t h).1 rfl
  have havF : a ∈ vis' := hmono hinv.hav
  have hq'_lb : ∀ e ∈ q', path.length ≤ e.2.length := by
    intro e he
    rcases hq'mem e he with h | h
    · exact hrest_lb e h
    · rw [hnew_len e h]
      omega
  have hq'_ub : ∀ e ∈ q', e.2.length ≤ path.length + 1 := by
    intro e he
    rcases hq'mem e he with h | h
    · exact hrest_ub e h
    · rw [hnew_len e h]
  have hsortF : q'.Pairwise (fun u v => u.2.length ≤ v.2.length) := by
    rw [hq'eq, List.pairwise_append]
    refine ⟨(List.pairwise_cons.mp hinv.hsort).2, ?_, ?_⟩
    · exact List.pairwise_of_forall_mem_list (fun u hu v hv => by
        rw [hnew_len u hu, hnew_len v hv])
    · intro u hu v hv
      rw [hnew_len v hv]
      exact hrest_ub u hu
  have hwinF : ∀ e ∈ q', ∀ f ∈ q', e.2.length ≤ f.2.length + 1 := by
    intro e he f hf
    have h1 := hq'_ub e he
    have h2 := hq'_lb f hf
    omega
  have hshortF : ∀ e ∈ q', ∀ r, pathOk adj r = true → r.head? = some a →
      r.getLast? = some e.1 → e.2.length ≤ r.length := by
    intro e he r hr hrh hrl
    rcases hq'mem e he with h | h
    · exact hinv.hshort e (by simp [h]) r hr hrh hrl
    · obtain ⟨h1, h2, h3, h4⟩ := hnew e h
      by_contra hlt
      push_neg at hlt
      have helen := hnew_len e h
      have hrlen : r.length ≤ path.length := by omega
      have hmem : e.1 ∈ visited := hinv.hcov r hr hrh (by
        intro f hf
        rcases List.mem_cons.mp hf with rfl | hf'
        · simpa using hrlen
        · exact le_trans hrlen (hrest_lb f hf')) e.1 hrl
      exact h3 hmem
  have hclosedF : ∀ x ∈ vis', (∀ e ∈ q', e.1 ≠ x) →
      ∀ y ∈ (dictGet x adj).getD [], y ∈ vis' ∧ y ≠ t := by
    intro x hx hxq y hy
    by_cases hxc : x = current
    · subst hxc
      have hyfacts := hA y hy
      exact ⟨hyfacts.2, hyfacts.1⟩
    · by_cases hxvis : x ∈ visited
      · have hold := hinv.hclosed x hxvis (by
          intro e he
          rcases List.mem_cons.mp he with rfl | he'
          · exact fun hc => hxc hc.symm
          · exact hxq e (by rw [hq'eq]; exact List.mem_append.mpr (Or.inl he')))
        exact ⟨hmono (hold y hy).1, (hold y hy).2⟩
      · rcases hsub x hx with hxv | hxn
        · exact absurd hxv hxvis
        · obtain ⟨p', hp'⟩ := hfresh x hxn hxvis
          exact absurd rfl
            (hxq (x, p') (by rw [hq'eq]; exact List.mem_append.mpr (Or.inr hp')))
  have hcovF : ∀ r, pathOk adj r = true → r.head? = some a →
      (∀ e ∈ q', r.length ≤ e.2.length) → ∀ z, r.getLast? = some z →
      z ∈ vis' := by
    intro r hr hrh hrlen z hz
    by_cases hq'nil : q' = []
    · have hclosed0 : ∀ x ∈ vis', ∀ y ∈ (dictGet x adj).getD [],
          y ∈ vis' ∧ y ≠ t := by
        intro x hx y hy
        exact hclosedF x hx (by simp [hq'nil]) y hy
      exact (path_closed hclosed0 r hr a hrh havF hat z hz).1
    · obtain ⟨e0, he0⟩ := List.exists_mem_of_ne_nil q' hq'nil
      have hrub : r.length ≤ path.length + 1 :=
        le_trans (hrlen e0 he0) (hq'_ub e0 he0)
      by_cases hcase : r.length ≤ path.length
      · have hzv : z ∈ visited := hinv.hcov r hr hrh (by
          intro f hf
          rcases List.mem_cons.mp hf with rfl | hf'
          · simpa using hcase
          · exact le_trans hcase (hrest_lb f hf')) z hz
        exact hmono hzv
      · have hreq : r.length = path.length + 1 := by omega
        have hrlen2 : 2 ≤ r.length := by omega
        obtain ⟨r0, v, hr1, hr2, hr3, hr4, hr5⟩ := pathOk_drop_last hr hz hrlen2
        have hr0len : r0.length = path.length := by
          have hx : r.length = r0.length + 1 := by rw [hr1]; simp
          omega
        have hr0h : r0.head? = some a := by rw [hr5]; exact hrh
        have hvvis : v ∈ visited := hinv.hcov r0 hr2 hr0h (by
          intro f hf
          rcases List.mem_cons.mp hf with rfl | hf'
          · simpa using hr0len.le
          · rw [hr0len]; exact hrest_lb f hf') v hr3
        have hvq : ∀ e ∈ q', e.1 ≠ v := by
          intro e he hev
          have h1 := hshortF e he r0 hr2 hr0h (by rw [hev]; exact hr3)
          have h2 := hrlen e he
          omega
        exact (hclosedF v (hmono hvvis) hvq z hr4).1
  exact ⟨hqF, hqvF, hqtF, htvF, havF, hsortF, hwinF, hshortF, hclosedF, hcovF⟩

/-! ## Early return, empty queue, loop correctness -/

theorem bfsReturn_good {adj : List (String × List String)} {a t current : String}
    {path : List String} {rest : List (String × List String)}
    {visited : List String} {p : List String}
    {q1 : List (String × List String)} {v1 : List String}
    (hinv : BfsInv adj a t ((current, path) :: rest) visited)
    (hscan : bfsScan t path ((dictGet current adj).getD []) rest visited =
      (some p, q1, v1)) :
    p ≠ [] ∧ pathOk adj p = true ∧ p.head? = some a ∧ p.getLast? = some t ∧
    ∀ r, pathOk adj r = true → r.head? = some a → r.getLast? = some t →
      p.length ≤ r.length := by
  obtain ⟨hp, htn⟩ := bfsScan_some_spec t path _ rest visited q1 v1 p hscan
  obtain ⟨hq0p, hq0h, hq0l⟩ := hinv.hq (current, path) (by simp)
  obtain ⟨hpk, hpl⟩ := pathOk_append_last hq0p hq0l htn
  subst hp
  refine ⟨by simp, hpk, ?_, hpl, ?_⟩
  · rw [head?_append_left _ (pathOk_ne_nil hq0p)]
    exact hq0h
  · intro r hr hrh hrl
    by_contra hlt
    push_neg at hlt
    have hplen : (path ++ [t]).length = path.length + 1 := by simp
    have hrlen : r.length ≤ path.length := by omega
    have htvis : t ∈ visited := hinv.hcov r hr hrh (by
      intro f hf
      rcases List.mem_cons.mp hf with rfl | hf'
      · simpa using hrlen
      · exact le_trans hrlen ((List.pairwise_cons.mp hinv.hsort).1 f hf')) t hrl
    exact hinv.htv htvis

theorem bfsEmpty_noReach {adj : List (String × List String)} {a t : String}
    {visited : List String} (hat : a ≠ t)
    (hinv : BfsInv adj a t [] visited) :
    ∀ r, pathOk adj r = true → r.head? = some a → r.getLast? ≠ some t := by
  intro r hr hrh hrl
  have hcl : ∀ x ∈ visited, ∀ y ∈ (dictGet x adj).getD [],
      y ∈ visited ∧ y ≠ t :=
    fun x hx => hinv.hclosed x hx (by simp)
  exact (path_closed hcl r hr a hrh hinv.hav hat t hrl).2 rfl

theorem bfsLoop_correct {adj : List (String × List String)} {a t : String}
    (hat : a ≠ t) :
    ∀ (fuel : Nat) (qu : List (String × List String)) (vis : List String),
    BfsInv adj a t qu vis →
    ∀ p, bfsLoop adj t fuel qu vis = some p →
    (p = [] → ∀ r, pathOk adj r = true → r.head? = some a →
      r.getLast? ≠ some t) ∧
    (p ≠ [] → pathOk adj p = true ∧ p.head? = some a ∧ p.getLast? = some t ∧
      ∀ r, pathOk adj r = true → r.head? = some a → r.getLast? = some t →
        p.length ≤ r.length) := by
  intro fuel
  induction fuel with
  | zero =>
    intro qu vis _ p h
    simp [bfsLoop] at h
  | succ n ih =>
    intro qu vis hinv p h
    cases qu with
    | nil =>
      have hp : p = [] := by
        simp only [bfsLoop] at h
        injection h with h
        exact h.symm
      subst hp
      exact ⟨fun _ => bfsEmpty_noReach hat hinv, fun hne => absurd rfl hne⟩
    | cons e rest =>
      obtain ⟨current, path⟩ := e
      rcases hscan : bfsScan t path ((dictGet current adj).getD []) rest vis
        with ⟨o, q2, v2⟩
      cases o with
      | some p2 =>
        have hp : p = p2 := by
          simp only [bfsLoop] at h
          rw [hscan] at h
          simp at h
          exact h.symm
        subst hp
        obtain ⟨hne, h1, h2, h3, h4⟩ := bfsReturn_good hinv hscan
        exact ⟨fun he => absurd he hne, fun _ => ⟨h1, h2, h3, h4⟩⟩
      | none =>
        have hrec : bfsLoop adj t n q2 v2 = some p := by
          simp only [bfsLoop] at h
          rw [hscan] at h
          simpa using h
        exact ih q2 v2 (bfsStep_inv hat hinv hscan) p hrec

/-! ## Fuel sufficiency -/

theorem adjN_subset_adjVals (adj : List (String × List String)) (x : String) :
    ∀ y ∈ (dictGet x adj).getD [], y ∈ adjVals adj := by
  induction adj with
  | nil =>
    intro y hy
    simp [dictGet] at hy
  | cons kv rest ih =>
    obtain ⟨k, vs⟩ := kv
    intro y hy
    simp only [dictGet] at hy
    have hAV : adjVals ((k, vs) :: rest) = vs ++ adjVals rest := by
      simp [adjVals]
    rw [hAV]
    by_cases hk : k = x
    · rw [if_pos hk] at hy
      simp at hy
      exact List.mem_append.mpr (Or.inl hy)
    · rw [if_neg hk] at hy
      exact List.mem_append.mpr (Or.inr (ih y hy))

theorem bfsLoop_some {adj : List (String × List String)} {a t : String} :
    ∀ (fuel : Nat) (qu : List (String × List String)) (vis : List String),
    vis.Nodup → (∀ w ∈ vis, w ∈ a :: adjVals adj) →
    (adjVals adj).length + 1 + qu.length < fuel + vis.length →
    ∃ p, bfsLoop adj t fuel qu vis = some p := by
  intro fuel
  induction fuel with
  | zero =>
    intro qu vis hnd hsub hlt
    exfalso
    have hle : vis.length ≤ (a :: adjVals adj).length :=
      (hnd.subperm (fun w hw => hsub w hw)).length_le
    simp at hle
    omega
  | succ n ih =>
    intro qu vis hnd hsub hlt
    cases qu with
    | nil => exact ⟨[], by simp [bfsLoop]⟩
    | cons e rest =>
      obtain ⟨current, path⟩ := e
      rcases hscan : bfsScan t path ((dictGet current adj).getD []) rest vis
        with ⟨o, q2, v2⟩
      cases o with
      | some p2 =>
        refine ⟨p2, ?_⟩
        simp only [bfsLoop]
        rw [hscan]
      | none =>
        obtain ⟨hA, hB, hC, hD, hE, hF⟩ :=
          bfsScan_none_spec t path _ rest vis q2 v2 hscan
        have hsubs : ∀ w ∈ v2, w ∈ a :: adjVals adj := by
          intro w hw
          rcases hD w hw with h | h
          · exact hsub w h
          · exact List.mem_cons_of_mem _ (adjN_subset_adjVals adj current w h)
        have hbound : (adjVals adj).length + 1 + q2.length < n + v2.length := by
          simp only [List.length_cons] at hlt
          omega
        obtain ⟨p, hp⟩ := ih q2 v2 (hE hnd) hsubs hbound
        refine ⟨p, ?_⟩
        simp only [bfsLoop]
        rw [hscan]
        exact hp

/-! ## Initial invariant -/

theorem bfsInv_init (adj : List (String × List String)) {a t : String}
    (hat : a ≠ t) : BfsInv adj a t [(a, [a])] [a] := by
  refine ⟨?_, ?_, ?_, ?_, ?_, ?_, ?_, ?_, ?_, ?_⟩
  · intro e he
    simp at he
    subst he
    exact ⟨rfl, rfl, rfl⟩
  · intro e he
    simp at he
    subst he
    simp
  · intro e he
    simp at he
    subst he
    exact hat
  · intro h
    simp at h
    exact hat h.symm
  · simp
  · simp
  · intro e he f hf
    simp at he hf
    subst he
    subst hf
    simp
  · intro e he r hr hrh hrl
    simp at he
    subst he
    have hne := pathOk_ne_nil hr
    cases r with
    | nil => exact absurd rfl hne
    | cons _ _ => simp
  · intro x hx hq y hy
    exfalso
    simp at hx
    subst hx
    exact hq (x, [x]) (by simp) rfl
  · intro r hr hrh hlen z hz
    have h1 := hlen (a, [a]) (by simp)
    have hne := pathOk_ne_nil hr
    obtain ⟨w, rest, hw⟩ : ∃ w rest, r = w :: rest := by
      cases r with
      | nil => exact absurd rfl hne
      | cons w rest => exact ⟨w, rest, rfl⟩
    subst hw
    have hrest : rest = [] := by
      rcases rest with _ | ⟨c, cs⟩
      · rfl
      · exfalso
        have h1' : (w :: c :: cs).length ≤ 1 := by simpa using h1
        simp at h1'
    subst hrest
    simp at hrh hz
    subst hrh
    subst hz
    simp

/-! ## Claim C1: `find_path` -/

/-- C1: counterexample.  The claim fails as stated: `find_path` first
requires BOTH endpoints to be present in `nodes`.  In `c1Graph` the edge
`a → b` is recorded in the adjacency map before `b` is visited, so `b`
is reachable from `a` in `adjacency` (it is a direct neighbor and
`[a, b]` is a valid walk), yet `find_path(a, b)` returns `[]`; likewise
`find_path(x, x)` returns `[]` instead of `[x]` for any `x` that is not
a node. -/
theorem C1_counterexample :
    ("https://ex.com/b" ∈
        (dictGet "https://ex.com/a" c1Graph.adjacency).getD [] ∧
      pathOk c1Graph.adjacency ["https://ex.com/a", "https://ex.com/b"] = true ∧
      find_path c1Graph "https://ex.com/a" "https://ex.com/b" = []) ∧
    find_path c1Graph "https://ex.com/x" "https://ex.com/x" = [] := by
  decide

/-- C1 (amended): when both endpoints are nodes of the graph,
`find_path(a, a) = [a]`; `find_path(a, b)` is empty iff `b` is not
reachable from `a` in the adjacency map (no valid walk from `a` to `b`);
and a nonempty result is a valid walk from `a` to `b` of minimum length
among all such walks. -/
theorem C1_find_path_correct (g : SiteGraph) (a b : String)
    (ha : dictContains a g.nodes = true) (hb : dictContains b g.nodes = true) :
    find_path g a a = [a] ∧
    (find_path g a b = [] ↔
      ¬ ∃ r, pathOk g.adjacency r = true ∧ r.head? = some a ∧
        r.getLast? = some b) ∧
    (find_path g a b ≠ [] →
      pathOk g.adjacency (find_path g a b) = true ∧
      (find_path g a b).head? = some a ∧
      (find_path g a b).getLast? = some b ∧
      ∀ r, pathOk g.adjacency r = true → r.head? = some a →
        r.getLast? = some b → (find_path g a b).length ≤ r.length) := by
  have hself : find_path g a a = [a] := by
    simp [find_path, ha]
  by_cases hab : a = b
  · subst hab
    refine ⟨hself, ?_, ?_⟩
    · constructor
      · intro h
        rw [hself] at h
        exact absurd h (by simp)
      · intro hn
        exact absurd ⟨[a], rfl, rfl, rfl⟩ hn
    · intro hne
      rw [hself]
      refine ⟨rfl, rfl, rfl, ?_⟩
      intro r hr hrh hrl
      have hne2 := pathOk_ne_nil hr
      cases r with
      | nil => exact absurd rfl hne2
      | cons _ _ => simp
  · have hfp : find_path g a b =
        (bfsLoop g.adjacency b ((adjVals g.adjacency).length + 2)
          [(a, [a])] [a]).getD [] := by
      simp [find_path, ha, hb, hab]
    obtain ⟨p, hp⟩ := @bfsLoop_some g.adjacency a b
      ((adjVals g.adjacency).length + 2) [(a, [a])] [a]
      (by simp)
      (by intro w hw; simp at hw; subst hw; simp)
      (by simp)
    have hfp2 : find_path g a b = p := by
      rw [hfp, hp]
      rfl
    have hcor := bfsLoop_correct hab ((adjVals g.adjacency).length + 2)
      [(a, [a])] [a] (bfsInv_init g.adjacency hab) p hp
    refine ⟨hself, ?_, ?_⟩
    · constructor
      · intro h0 hex
        obtain ⟨r, hr1, hr2, hr3⟩ := hex
        rw [hfp2] at h0
        exact (hcor.1 h0) r hr1 hr2 hr3
      · intro hnex
        rw [hfp2]
        by_contra hpne
        obtain ⟨h1, h2, h3, _⟩ := hcor.2 hpne
        exact hnex ⟨p, h1, h2, h3⟩
    · intro hne
      rw [hfp2] at hne ⊢
      exact hcor.2 hne

/-- Witness for C1 at a concrete two-node graph with the edge `a → b`. -/
theorem C1_find_path_correct_witness :
    (dictContains "https://ex.com/a" c1WGraph.nodes = true ∧
      dictContains "https://ex.com/b" c1WGraph.nodes = true) ∧
    (find_path c1WGraph "https://ex.com/a" "https://ex.com/a" =
        ["https://ex.com/a"] ∧
      (find_path c1WGraph "https://ex.com/a" "https://ex.com/b" = [] ↔
        ¬ ∃ r, pathOk c1WGraph.adjacency r = true ∧
          r.head? = some "https://ex.com/a" ∧
          r.getLast? = some "https://ex.com/b") ∧
      (find_path c1WGraph "https://ex.com/a" "https://ex.com/b" ≠ [] →
        pathOk c1WGraph.adjacency
          (find_path c1WGraph "https://ex.com/a" "https://ex.com/b") = true ∧
        (find_path c1WGraph "https://ex.com/a" "https://ex.com/b").head? =
          some "https://ex.com/a" ∧
        (find_path c1WGraph "https://ex.com/a" "https://ex.com/b").getLast? =
          some "https://ex.com/b" ∧
        ∀ r, pathOk c1WGraph.adjacency r = true →
          r.head? = some "https://ex.com/a" →
          r.getLast? = some "https://ex.com/b" →
          (find_path c1WGraph "https://ex.com/a" "https://ex.com/b").length ≤
            r.length)) :=
  ⟨⟨by decide, by decide⟩,
    C1_find_path_correct c1WGraph "https://ex.com/a" "https://ex.com/b"
      (by decide) (by decide)⟩

end GIT
